import Mathlib

/-! go-updater: applying a zip archive of updates (`zip.go`).

A shallow embedding of `ApplyZip`, `applyZipFile`, `streamZipFile` and
`shouldIgnore`, together with the parts of Go's `strings` and
`path/filepath` packages they call.

Go strings are modelled as lists of characters: the code looks only for the
separators `/` and `\` and for `.`, which are single bytes that occur in no
multi-byte character, so bytes and characters split alike.  Everything the code obtains
from its surroundings (the host's path separator and path functions, the
archive found at a path, the running executable's path, the single-file
installer `Apply`) is an explicit parameter.
-/

namespace Updater

/-- A Go `string`. -/
abbrev GoString := List Char

/-- A Go `error` value: either one produced by a collaborator, or one built by
`fmt.Errorf("<context>: %w", inner)`. -/
inductive GoError where
  | leaf (msg : String)
  | wrapped (context : String) (inner : GoError)
  deriving DecidableEq

/-- The decompressed content read through an entry's `io.Reader`. -/
abbrev Stream := List Nat

/-- A `*zip.File`: the stored name, what `file.FileInfo().IsDir()` answers, and
what `file.Open()` answers. -/
structure File where
  Name : GoString
  IsDir : Bool
  Open : Except GoError Stream

/-- The `Options` value: `TargetPath` and the fields only the installer reads. -/
structure Options (ω : Type) where
  TargetPath : GoString
  Rest : ω

/-- `ignorePaths = []string{".DS_Store", "__MACOSX"}`. -/
def ignorePaths : List GoString := [".DS_Store".toList, "__MACOSX".toList]

/-! ## `strings.SplitSeq` with a one-character separator -/

/-- The loop of `strings.SplitSeq(s, sep)`: `cur` holds, reversed, the
characters of the fragment read so far. -/
def splitSeqFrom (sep : Char) : List Char → GoString → List GoString
  | cur, [] => [cur.reverse]
  | cur, c :: cs =>
    if c = sep then cur.reverse :: splitSeqFrom sep [] cs
    else splitSeqFrom sep (c :: cur) cs

/-- The fragments `strings.SplitSeq(s, string(sep))` yields, in order. -/
def splitSeq (sep : Char) (s : GoString) : List GoString :=
  splitSeqFrom sep [] s

/-- `slices.Contains(ignorePaths, p)`. -/
def containsPath (p : GoString) : Bool :=
  ignorePaths.any (fun q => decide (q = p))

/-- `shouldIgnore(file)`; `Separator` is the host's `filepath.Separator`. -/
def shouldIgnore (Separator : Char) (file : File) : Bool :=
  (splitSeq Separator file.Name).any containsPath

/-! ## `path/filepath` on a host whose separator is `/` -/

/-- The test `r == n || os.IsPathSeparator(path[r])` on the unread part of the
path. -/
def atElemEnd : GoString → Bool
  | [] => true
  | c :: _ => decide (c = '/')

/-- The backtracking loop of `Clean`, entered with `out.w` already decremented
to `w`: `for out.w > dotdot && !os.IsPathSeparator(out.index(out.w)) { out.w-- }`.
Returns the final `out.w`. -/
def backtrack (out : GoString) (dotdot : Nat) : Nat → Nat
  | 0 => 0
  | w + 1 =>
    if dotdot < w + 1 ∧ out.get? (w + 1) ≠ some '/' then backtrack out dotdot w
    else w + 1

/-- The test `!os.IsPathSeparator(c)`. -/
def notSeparator (c : Char) : Bool := decide (c ≠ '/')

/-- The variables of the main loop of `filepath.Clean`: the unread part
`path[r:]` of the path, the first `out.w` bytes of the buffer, and `dotdot`. -/
structure CleanState where
  rest : GoString
  out : GoString
  dotdot : Nat
  deriving DecidableEq

/-- One iteration of the main loop of `filepath.Clean`, the unread part being
`c :: t`. -/
def cleanStep (rooted : Bool) (c : Char) (t : GoString) (out : GoString) (dotdot : Nat) :
    CleanState :=
  if c = '/' then
    -- empty path element
    ⟨t, out, dotdot⟩
  else if c = '.' ∧ atElemEnd t = true then
    -- . element
    ⟨t, out, dotdot⟩
  else if c = '.' ∧ t.head? = some '.' ∧ atElemEnd t.tail = true then
    -- .. element: remove to last separator
    if dotdot < out.length then
      -- can backtrack
      ⟨t.tail, out.take (backtrack out dotdot (out.length - 1)), dotdot⟩
    else if rooted = false then
      -- cannot backtrack, but not rooted, so append .. element
      ⟨t.tail, (if 0 < out.length then out ++ ['/'] else out) ++ ['.', '.'],
        ((if 0 < out.length then out ++ ['/'] else out) ++ ['.', '.']).length⟩
    else
      ⟨t.tail, out, dotdot⟩
  else
    -- real path element: add slash if needed, copy element
    ⟨(c :: t).dropWhile notSeparator,
      (if (rooted = true ∧ out.length ≠ 1) ∨ (rooted = false ∧ out.length ≠ 0)
        then out ++ ['/'] else out) ++ (c :: t).takeWhile notSeparator,
      dotdot⟩

/-- The main loop `for r < n` of `filepath.Clean`.  Every iteration consumes at
least one byte, so `len(path)` iterations suffice. -/
def cleanLoop (rooted : Bool) : Nat → CleanState → CleanState
  | 0, st => st
  | fuel + 1, st =>
    match st.rest with
    | [] => st
    | c :: t => cleanLoop rooted fuel (cleanStep rooted c t st.out st.dotdot)

/-- The loop of `Clean` run on a whole path: a leading separator is copied
first, and the path is then rooted. -/
def cleanRun (path : GoString) : CleanState :=
  match path with
  | [] => ⟨[], [], 0⟩
  | c :: t =>
    if c = '/' then cleanLoop true path.length ⟨t, ['/'], 1⟩
    else cleanLoop false path.length ⟨path, [], 0⟩

/-- `filepath.Clean(path)`. -/
def Clean (path : GoString) : GoString :=
  if path = [] then ['.']
  else if (cleanRun path).out = [] then ['.'] else (cleanRun path).out

/-- `filepath.Join(a, b)`: the elements from the first non-empty one on, joined
by the separator and cleaned. -/
def Join (a b : GoString) : GoString :=
  if a ≠ [] then Clean (a ++ '/' :: b)
  else if b ≠ [] then Clean b
  else []

/-- `filepath.Dir(path)`: all but the last element of the path, cleaned. -/
def Dir (path : GoString) : GoString :=
  Clean (path.reverse.dropWhile notSeparator).reverse

/-- What the code takes from the host's `path/filepath` package. -/
structure Host where
  Separator : Char
  Join : GoString → GoString → GoString
  Dir : GoString → GoString

/-- A host whose separator is `/`. -/
def unixHost : Host := ⟨'/', Join, Dir⟩

/-! ## The archive walker -/

/-- What happens to entry streams during a walk; `idx` is the entry's position
in `reader.File`. -/
inductive Event where
  /-- `file.Open()` returned a reader for the entry. -/
  | openStream (idx : Nat)
  /-- `file.Open()` returned an error for the entry. -/
  | openFailed (idx : Nat)
  /-- `visitor(file.Name, fileReader)` was called and returned `result`. -/
  | visit (idx : Nat) (name : GoString) (content : Stream) (result : Option GoError)
  /-- `fileReader.Close()`. -/
  | closeStream (idx : Nat)
  deriving DecidableEq

/-- The result of a walk: the visitor's state afterwards, the events in order,
and the returned `error` (`none` is `nil`). -/
structure Outcome (σ : Type) where
  state : σ
  trace : List Event
  err : Option GoError

/-- A visitor: a Go closure `func(name string, reader io.Reader) error` acting
on a state of type `σ`. -/
abbrev Visitor (σ : Type) := σ → GoString → Stream → σ × Option GoError

/-- The `for _, file := range reader.File` loop of `streamZipFile`, from the
entry at position `idx` on. -/
def streamFiles {σ : Type} (Separator : Char) (visitor : Visitor σ) :
    Nat → List File → σ → Outcome σ
  | _, [], s => ⟨s, [], none⟩
  | idx, file :: rest, s =>
    if shouldIgnore Separator file = true then
      streamFiles Separator visitor (idx + 1) rest s
    else if file.IsDir = true then
      streamFiles Separator visitor (idx + 1) rest s
    else
      match file.Open with
      | .error err => ⟨s, [.openFailed idx], some (.wrapped "zip open" err)⟩
      | .ok fileReader =>
        let r := visitor s file.Name fileReader
        let events := [Event.openStream idx, .visit idx file.Name fileReader r.2,
          .closeStream idx]
        match r.2 with
        | some err => ⟨r.1, events, some err⟩
        | none =>
          let o := streamFiles Separator visitor (idx + 1) rest r.1
          ⟨o.state, events ++ o.trace, o.err⟩

/-- `streamZipFile(zipPath, visitor)`; `OpenReader` is `zip.OpenReader`. -/
def streamZipFile {σ : Type} (Separator : Char)
    (OpenReader : GoString → Except GoError (List File))
    (zipPath : GoString) (visitor : Visitor σ) (s : σ) : Outcome σ :=
  match OpenReader zipPath with
  | .error err => ⟨s, [], some (.wrapped "zip reader" err)⟩
  | .ok files => streamFiles Separator visitor 0 files s

/-! ## The dispatcher and the entry point -/

/-- The external installer `Apply(reader, opts)`, acting on a state `σ` of its
own (the file system). -/
abbrev Installer (σ ω : Type) := σ → Stream → Options ω → σ × Option GoError

/-- The installer's state together with the record of the calls made to it. -/
structure World (σ ω : Type) where
  disk : σ
  calls : List (Stream × Options ω)

/-- A call `Apply(freader, opts)`: recorded, then answered by the installer. -/
def callApply {σ ω : Type} (Apply : Installer σ ω) (w : World σ ω)
    (freader : Stream) (opts : Options ω) : World σ ω × Option GoError :=
  (⟨(Apply w.disk freader opts).1, w.calls ++ [(freader, opts)]⟩,
    (Apply w.disk freader opts).2)

/-- `applyZipFile(fname, freader, opts)`.  `opts` is passed by value: the
assignment changes the callee's copy only. -/
def applyZipFile {σ ω : Type} (h : Host) (Apply : Installer σ ω)
    (fname : GoString) (freader : Stream) (opts : Options ω) (w : World σ ω) :
    World σ ω × Option GoError :=
  let opts := { opts with TargetPath := h.Join opts.TargetPath fname }
  callApply Apply w freader opts

/-- `ApplyZip(zipfile, opts)`; `ExecutableRealPath` is what the call
`ExecutableRealPath()` answers. -/
def ApplyZip {σ ω : Type} (h : Host) (ExecutableRealPath : Except GoError GoString)
    (OpenReader : GoString → Except GoError (List File)) (Apply : Installer σ ω)
    (zipfile : GoString) (opts : Options ω) (w : World σ ω) : Outcome (World σ ω) :=
  if opts.TargetPath = [] then
    match ExecutableRealPath with
    | .error err => ⟨w, [], some (.wrapped "executable path" err)⟩
    | .ok p =>
      let opts := { opts with TargetPath := h.Dir p }
      streamZipFile h.Separator OpenReader zipfile
        (fun w name reader => applyZipFile h Apply name reader opts w) w
  else
    streamZipFile h.Separator OpenReader zipfile
      (fun w name reader => applyZipFile h Apply name reader opts w) w

/-! ## Notions used to state the properties -/

/-- An installable entry: neither ignored nor a directory. -/
def qualifies (Separator : Char) (file : File) : Bool :=
  !shouldIgnore Separator file && !file.IsDir

/-- The content of an entry whose stream opens (empty when it does not). -/
def File.content (file : File) : Stream :=
  match file.Open with
  | .ok c => c
  | .error _ => []

/-- Whether `file.Open()` returns a reader. -/
def File.opens (file : File) : Bool :=
  match file.Open with
  | .ok _ => true
  | .error _ => false

/-- The position of the entry an event is about. -/
def Event.idx : Event → Nat
  | .openStream i => i
  | .openFailed i => i
  | .visit i _ _ _ => i
  | .closeStream i => i

/-- The installable entries of an archive with their positions, in archive
order; `idx` is the position of the first entry of `files`. -/
def installable (Separator : Char) (idx : Nat) (files : List File) : List (Nat × File) :=
  (files.enumFrom idx).filter (fun p => qualifies Separator p.2)

/-- The arguments `(name, reader)` of the visitor calls in a trace, in order. -/
def visitArgs : List Event → List (GoString × Stream)
  | [] => []
  | .visit _ name content _ :: rest => (name, content) :: visitArgs rest
  | _ :: rest => visitArgs rest

/-- The events of an entry whose stream opened and whose visit returned
`result`. -/
def entryEvents (idx : Nat) (file : File) (result : Option GoError) : List Event :=
  [.openStream idx, .visit idx file.Name file.content result, .closeStream idx]

/-- The positions of the streams that are open after the events, given those
open before (`cur`). -/
def openStreams : List Nat → List Event → List Nat
  | cur, [] => cur
  | cur, .openStream i :: rest => openStreams (i :: cur) rest
  | cur, .closeStream i :: rest => openStreams (cur.erase i) rest
  | cur, .openFailed _ :: rest => openStreams cur rest
  | cur, .visit _ _ _ _ :: rest => openStreams cur rest

/-- The traces in which every stream is opened, visited once and closed at
once: a run of `openStream i, visit i, closeStream i` triples, with at most a
final failed attempt to open. -/
inductive Disciplined : List Event → Prop where
  | done : Disciplined []
  | failed (i : Nat) : Disciplined [.openFailed i]
  | entry (i : Nat) (name : GoString) (c : Stream) (r : Option GoError)
      (rest : List Event) (hrest : Disciplined rest) :
      Disciplined (.openStream i :: .visit i name c r :: .closeStream i :: rest)

/-- The separator `Clean` writes before a path element, if it writes one. -/
def elemSeparator (rooted : Bool) (out : GoString) : GoString :=
  if (rooted = true ∧ out.length ≠ 1) ∨ (rooted = false ∧ out.length ≠ 0) then ['/'] else []

/-- A name with no `..` among its `/`-separated segments. -/
def NoDotDot (name : GoString) : Prop := ['.', '.'] ∉ splitSeq '/' name

/-- A path all of whose `/`-separated segments are ordinary names: none is
empty, `.` or `..`. -/
def Normal (path : GoString) : Prop :=
  ∀ seg ∈ splitSeq '/' path, seg ≠ [] ∧ seg ≠ ['.'] ∧ seg ≠ ['.', '.']

instance instDecidableNoDotDot (name : GoString) : Decidable (NoDotDot name) := by
  unfold NoDotDot
  infer_instance

instance instDecidableNormal (path : GoString) : Decidable (Normal path) := by
  unfold Normal
  infer_instance

/-- The call the dispatcher makes for an entry: the entry's stream and a copy
of the base options whose path is the base directory joined with the name. -/
def entryCall {ω : Type} (h : Host) (opts : Options ω) (a : GoString × Stream) :
    Stream × Options ω :=
  (a.2, { opts with TargetPath := h.Join opts.TargetPath a.1 })

/-- The dispatcher bound to the base options, as `ApplyZip` hands it to the
walker. -/
def dispatcher {σ ω : Type} (h : Host) (Apply : Installer σ ω) (opts : Options ω) :
    Visitor (World σ ω) :=
  fun w name reader => applyZipFile h Apply name reader opts w

/-- The base target directory `ApplyZip` works with: `TargetPath` when it is
not empty, else the directory of the executable when its path resolves. -/
def baseDir (h : Host) (ExecutableRealPath : Except GoError GoString)
    (TargetPath : GoString) : Option GoString :=
  if TargetPath = [] then
    match ExecutableRealPath with
    | .error _ => none
    | .ok p => some (h.Dir p)
  else some TargetPath

/-! ## Inputs of the scenarios -/

/-- The archive of the specification's scenario: `bin/tool` (file), `bin/`
(directory), `.DS_Store` (file), `docs/guide.txt` (file). -/
def sampleArchive : List File :=
  [⟨"bin/tool".toList, false, .ok [1]⟩, ⟨"bin/".toList, true, .ok []⟩,
    ⟨".DS_Store".toList, false, .ok [2]⟩, ⟨"docs/guide.txt".toList, false, .ok [3]⟩]

/-- The archive with the two nested metadata entries of the specification. -/
def nestedArchive : List File :=
  [⟨"a/.DS_Store".toList, false, .ok [1]⟩, ⟨"x/y/__MACOSX/z.txt".toList, false, .ok [2]⟩]

/-- An archive with nothing to install: a directory and two ignored names. -/
def metadataArchive : List File :=
  [⟨"bin/".toList, true, .ok []⟩, ⟨".DS_Store".toList, false, .ok [2]⟩,
    ⟨"__MACOSX/._tool".toList, false, .ok [3]⟩]

/-- An archive whose second entry cannot be opened. -/
def brokenArchive : List File :=
  [⟨"bin/tool".toList, false, .ok [1]⟩,
    ⟨"lib/core.so".toList, false, .error (.leaf "unsupported compression")⟩,
    ⟨"docs/guide.txt".toList, false, .ok [3]⟩]

/-- An archive with an entry whose name climbs out of the target directory. -/
def climbingArchive : List File :=
  [⟨"../../etc/passwd".toList, false, .ok [7]⟩]

/-- An installer that fails on `/opt/app/bin/tool` and accepts everything
else. -/
def rejectTool : Installer Unit Unit :=
  fun s _ o =>
    if o.TargetPath = "/opt/app/bin/tool".toList then (s, some (.leaf "write failed"))
    else (s, none)

/-! ## Lemmas on the walker -/

theorem visitArgs_append (a b : List Event) :
    visitArgs (a ++ b) = visitArgs a ++ visitArgs b := by
  induction a with
  | nil => rfl
  | cons e a ih => cases e <;> simp [visitArgs, ih]

theorem streamFiles_cons_skip {σ : Type} (sep : Char) (v : Visitor σ) (idx : Nat)
    (file : File) (rest : List File) (s : σ) (hq : qualifies sep file = false) :
    streamFiles sep v idx (file :: rest) s = streamFiles sep v (idx + 1) rest s := by
  unfold qualifies at hq
  by_cases h1 : shouldIgnore sep file = true
  · simp [streamFiles, h1]
  · have h2 : file.IsDir = true := by simpa [h1] using hq
    simp [streamFiles, h1, h2]

theorem streamFiles_cons_openFailed {σ : Type} (sep : Char) (v : Visitor σ) (idx : Nat)
    (file : File) (rest : List File) (s : σ) (hq : qualifies sep file = true)
    (e : GoError) (ho : file.Open = .error e) :
    streamFiles sep v idx (file :: rest) s
      = ⟨s, [.openFailed idx], some (.wrapped "zip open" e)⟩ := by
  unfold qualifies at hq
  simp at hq
  simp [streamFiles, hq.1, hq.2, ho]

theorem streamFiles_cons_visitFailed {σ : Type} (sep : Char) (v : Visitor σ) (idx : Nat)
    (file : File) (rest : List File) (s : σ) (hq : qualifies sep file = true)
    (c : Stream) (ho : file.Open = .ok c) (e : GoError)
    (hv : (v s file.Name c).2 = some e) :
    streamFiles sep v idx (file :: rest) s
      = ⟨(v s file.Name c).1, entryEvents idx file (some e), some e⟩ := by
  unfold qualifies at hq
  simp at hq
  simp [streamFiles, hq.1, hq.2, ho, hv, entryEvents, File.content]

theorem streamFiles_cons_visitOk {σ : Type} (sep : Char) (v : Visitor σ) (idx : Nat)
    (file : File) (rest : List File) (s : σ) (hq : qualifies sep file = true)
    (c : Stream) (ho : file.Open = .ok c) (hv : (v s file.Name c).2 = none) :
    streamFiles sep v idx (file :: rest) s
      = ⟨(streamFiles sep v (idx + 1) rest (v s file.Name c).1).state,
          entryEvents idx file none
            ++ (streamFiles sep v (idx + 1) rest (v s file.Name c).1).trace,
          (streamFiles sep v (idx + 1) rest (v s file.Name c).1).err⟩ := by
  unfold qualifies at hq
  simp at hq
  simp [streamFiles, hq.1, hq.2, ho, hv, entryEvents, File.content]

/-- The four ways the loop treats its first entry. -/
theorem streamFiles_cons_cases {σ : Type} (sep : Char) (v : Visitor σ) (idx : Nat)
    (file : File) (rest : List File) (s : σ) :
    (qualifies sep file = false ∧
      streamFiles sep v idx (file :: rest) s = streamFiles sep v (idx + 1) rest s)
    ∨ (qualifies sep file = true ∧ ∃ e, file.Open = .error e ∧
      streamFiles sep v idx (file :: rest) s
        = ⟨s, [.openFailed idx], some (.wrapped "zip open" e)⟩)
    ∨ (qualifies sep file = true ∧ ∃ c e, file.Open = .ok c ∧
      (v s file.Name c).2 = some e ∧
      streamFiles sep v idx (file :: rest) s
        = ⟨(v s file.Name c).1, entryEvents idx file (some e), some e⟩)
    ∨ (qualifies sep file = true ∧ ∃ c, file.Open = .ok c ∧
      (v s file.Name c).2 = none ∧
      streamFiles sep v idx (file :: rest) s
        = ⟨(streamFiles sep v (idx + 1) rest (v s file.Name c).1).state,
            entryEvents idx file none
              ++ (streamFiles sep v (idx + 1) rest (v s file.Name c).1).trace,
            (streamFiles sep v (idx + 1) rest (v s file.Name c).1).err⟩) := by
  cases hq : qualifies sep file with
  | false => exact Or.inl ⟨rfl, streamFiles_cons_skip sep v idx file rest s hq⟩
  | true =>
    right
    cases ho : file.Open with
    | error e =>
      exact Or.inl ⟨rfl, e, rfl, streamFiles_cons_openFailed sep v idx file rest s hq e ho⟩
    | ok c =>
      right
      cases hv : (v s file.Name c).2 with
      | some e =>
        exact Or.inl ⟨rfl, c, e, rfl, hv,
          streamFiles_cons_visitFailed sep v idx file rest s hq c ho e hv⟩
      | none =>
        exact Or.inr ⟨rfl, c, rfl, hv,
          streamFiles_cons_visitOk sep v idx file rest s hq c ho hv⟩

/-- The installer receives one call per visit of the walker, in the same
order, each built from the base options. -/
theorem dispatcher_calls {σ ω : Type} (h : Host) (Apply : Installer σ ω)
    (o : Options ω) (sep : Char) (files : List File) :
    ∀ (idx : Nat) (w : World σ ω),
      (streamFiles sep (dispatcher h Apply o) idx files w).state.calls
        = w.calls
          ++ (visitArgs (streamFiles sep (dispatcher h Apply o) idx files w).trace).map
              (entryCall h o) := by
  induction files with
  | nil => intro idx w; simp [streamFiles, visitArgs]
  | cons file rest ih =>
    intro idx w
    rcases streamFiles_cons_cases sep (dispatcher h Apply o) idx file rest w with
      ⟨_, heq⟩ | ⟨_, e, _, heq⟩ | ⟨_, c, e, ho, _, heq⟩ | ⟨_, c, ho, _, heq⟩
    · rw [heq]; exact ih (idx + 1) w
    · rw [heq]; simp [visitArgs]
    · rw [heq]
      simp [visitArgs, entryEvents, dispatcher, applyZipFile, callApply, entryCall,
        File.content, ho]
    · rw [heq]
      simp only [visitArgs_append]
      rw [ih]
      simp [visitArgs, entryEvents, dispatcher, applyZipFile, callApply, entryCall,
        File.content, ho]

/-- When every installable entry opens and the visitor never fails, the walk
returns `nil` and visits exactly the installable entries, in archive order. -/
theorem streamFiles_all_ok {σ : Type} (sep : Char) (v : Visitor σ)
    (hv : ∀ s n c, (v s n c).2 = none) (files : List File) :
    ∀ (idx : Nat) (s : σ),
      (∀ f ∈ files, qualifies sep f = true → f.opens = true) →
      (streamFiles sep v idx files s).err = none ∧
      visitArgs (streamFiles sep v idx files s).trace
        = (files.filter (qualifies sep)).map (fun f => (f.Name, f.content)) := by
  induction files with
  | nil => intro idx s _; simp [streamFiles, visitArgs]
  | cons file rest ih =>
    intro idx s hopen
    have hrest : ∀ f ∈ rest, qualifies sep f = true → f.opens = true :=
      fun f hf => hopen f (List.mem_cons_of_mem _ hf)
    rcases streamFiles_cons_cases sep v idx file rest s with
      ⟨hq, heq⟩ | ⟨hq, e, ho, _⟩ | ⟨_, c, e, _, hve, _⟩ | ⟨hq, c, ho, _, heq⟩
    · rw [heq, List.filter_cons_of_neg (by simp [hq])]
      exact ih (idx + 1) s hrest
    · have hc := hopen file (List.mem_cons_self _ _) hq
      simp [File.opens, ho] at hc
    · rw [hv] at hve
      cases hve
    · rw [heq, List.filter_cons_of_pos (by simp [hq])]
      obtain ⟨h1, h2⟩ := ih (idx + 1) (v s file.Name c).1 hrest
      refine ⟨h1, ?_⟩
      simp only [visitArgs_append, h2]
      simp [visitArgs, entryEvents]

theorem ApplyZip_of_baseDir {σ ω : Type} (h : Host)
    (exe : Except GoError GoString)
    (OpenReader : GoString → Except GoError (List File)) (Apply : Installer σ ω)
    (zipfile : GoString) (opts : Options ω) (w : World σ ω) (base : GoString)
    (hbase : baseDir h exe opts.TargetPath = some base) :
    ApplyZip h exe OpenReader Apply zipfile opts w
      = streamZipFile h.Separator OpenReader zipfile
          (dispatcher h Apply { opts with TargetPath := base }) w := by
  unfold baseDir at hbase
  unfold ApplyZip
  by_cases ht : opts.TargetPath = []
  · rw [if_pos ht] at hbase ⊢
    cases exe with
    | error e => simp at hbase
    | ok p =>
      simp only [Option.some.injEq] at hbase
      subst hbase
      rfl
  · rw [if_neg ht] at hbase ⊢
    simp only [Option.some.injEq] at hbase
    subst hbase
    rfl

theorem installable_cons_neg (sep : Char) (idx : Nat) (file : File) (rest : List File)
    (hq : qualifies sep file = false) :
    installable sep idx (file :: rest) = installable sep (idx + 1) rest := by
  simp [installable, hq]

theorem installable_cons_pos (sep : Char) (idx : Nat) (file : File) (rest : List File)
    (hq : qualifies sep file = true) :
    installable sep idx (file :: rest) = (idx, file) :: installable sep (idx + 1) rest := by
  simp [installable, hq]

theorem le_of_mem_installable (sep : Char) (idx : Nat) (files : List File)
    (p : Nat × File) (hp : p ∈ installable sep idx files) : idx ≤ p.1 :=
  List.le_fst_of_mem_enumFrom (List.mem_filter.1 hp).1

theorem installable_map_snd (sep : Char) (files : List File) :
    ∀ idx : Nat, (installable sep idx files).map Prod.snd = files.filter (qualifies sep) := by
  induction files with
  | nil => intro idx; rfl
  | cons file rest ih =>
    intro idx
    cases hq : qualifies sep file with
    | false =>
      rw [installable_cons_neg sep idx file rest hq, List.filter_cons_of_neg (by simp [hq])]
      exact ih (idx + 1)
    | true =>
      rw [installable_cons_pos sep idx file rest hq, List.filter_cons_of_pos (by simp [hq]),
        List.map_cons, ih (idx + 1)]

/-- Every event of a walk is about an entry at or after the starting position. -/
theorem le_idx_of_mem_trace {σ : Type} (sep : Char) (v : Visitor σ) (files : List File) :
    ∀ (idx : Nat) (s : σ), ∀ ev ∈ (streamFiles sep v idx files s).trace, idx ≤ ev.idx := by
  induction files with
  | nil => intro idx s ev hev; simp [streamFiles] at hev
  | cons file rest ih =>
    intro idx s ev hev
    rcases streamFiles_cons_cases sep v idx file rest s with
      ⟨_, heq⟩ | ⟨_, e, _, heq⟩ | ⟨_, c, e, _, _, heq⟩ | ⟨_, c, _, _, heq⟩
    · rw [heq] at hev
      exact Nat.le_of_succ_le (ih (idx + 1) s ev hev)
    · rw [heq] at hev
      simp only [List.mem_singleton] at hev
      subst hev
      exact Nat.le_refl _
    · rw [heq] at hev
      simp only [entryEvents, List.mem_cons, List.mem_singleton, List.not_mem_nil,
        or_false] at hev
      rcases hev with h | h | h <;> subst h <;> exact Nat.le_refl _
    · rw [heq] at hev
      simp only [entryEvents, List.mem_append, List.mem_cons, List.mem_singleton,
        List.not_mem_nil, or_false] at hev
      rcases hev with (h | h | h) | h
      · subst h; exact Nat.le_refl _
      · subst h; exact Nat.le_refl _
      · subst h; exact Nat.le_refl _
      · exact Nat.le_of_succ_le (ih (idx + 1) _ ev h)

/-- A visit that returned an error ends the walk: its error is returned as it
is, it is the visit of an installable entry, the visits made are those of the
installable entries up to that one, and no event is about a later entry. -/
theorem streamFiles_of_failed_visit {σ : Type} (sep : Char) (v : Visitor σ)
    (files : List File) (i : Nat) (name : GoString) (c : Stream) (e : GoError) :
    ∀ (idx : Nat) (s : σ),
      Event.visit i name c (some e) ∈ (streamFiles sep v idx files s).trace →
      (streamFiles sep v idx files s).err = some e
      ∧ (∀ ev ∈ (streamFiles sep v idx files s).trace, ev.idx ≤ i)
      ∧ ∃ (N : Nat) (f : File), (installable sep idx files)[N]? = some (i, f)
          ∧ visitArgs (streamFiles sep v idx files s).trace
              = ((installable sep idx files).take (N + 1)).map
                  (fun p => (p.2.Name, p.2.content)) := by
  induction files with
  | nil => intro idx s hev; simp [streamFiles] at hev
  | cons file rest ih =>
    intro idx s hev
    rcases streamFiles_cons_cases sep v idx file rest s with
      ⟨hq, heq⟩ | ⟨_, e', _, heq⟩ | ⟨hq, c', e', _, _, heq⟩ | ⟨hq, c', _, _, heq⟩
    · rw [heq] at hev ⊢
      rw [installable_cons_neg sep idx file rest hq]
      exact ih (idx + 1) s hev
    · rw [heq] at hev
      simp at hev
    · rw [heq] at hev ⊢
      simp only [entryEvents, List.mem_cons, List.mem_singleton, List.not_mem_nil,
        or_false, Event.visit.injEq, Option.some.injEq, reduceCtorEq, false_or] at hev
      obtain ⟨hi, _, _, he⟩ := hev
      subst hi he
      refine ⟨rfl, ?_, 0, file, ?_, ?_⟩
      · intro ev hev
        simp only [entryEvents, List.mem_cons, List.mem_singleton, List.not_mem_nil,
          or_false] at hev
        rcases hev with h | h | h <;> subst h <;> exact Nat.le_refl _
      · rw [installable_cons_pos sep i file rest hq]
        simp
      · rw [installable_cons_pos sep i file rest hq]
        simp [visitArgs, entryEvents]
    · rw [heq] at hev ⊢
      simp only [entryEvents, List.mem_append, List.mem_cons, List.mem_singleton,
        List.not_mem_nil, or_false, Event.visit.injEq, reduceCtorEq, false_or,
        and_false] at hev
      obtain ⟨h1, h2, N, f, h3, h4⟩ := ih (idx + 1) _ hev
      have hle : idx + 1 ≤ i := le_idx_of_mem_trace sep v rest (idx + 1) _ _ hev
      refine ⟨h1, ?_, N + 1, f, ?_, ?_⟩
      · intro ev hev'
        simp only [entryEvents, List.mem_append, List.mem_cons, List.mem_singleton,
          List.not_mem_nil, or_false] at hev'
        rcases hev' with (h | h | h) | h
        · subst h; exact Nat.le_of_succ_le hle
        · subst h; exact Nat.le_of_succ_le hle
        · subst h; exact Nat.le_of_succ_le hle
        · exact h2 ev h
      · rw [installable_cons_pos sep idx file rest hq]
        simpa using h3
      · rw [installable_cons_pos sep idx file rest hq]
        simp only [visitArgs_append, h4]
        simp [visitArgs, entryEvents]

/-- A failure to open an entry's stream ends the walk with the wrapped error;
the entry is installable and no event is about a later entry. -/
theorem streamFiles_of_openFailed {σ : Type} (sep : Char) (v : Visitor σ)
    (files : List File) (i : Nat) :
    ∀ (idx : Nat) (s : σ),
      Event.openFailed i ∈ (streamFiles sep v idx files s).trace →
      ∃ (f : File) (e0 : GoError), (i, f) ∈ installable sep idx files
        ∧ f.Open = .error e0
        ∧ (streamFiles sep v idx files s).err = some (.wrapped "zip open" e0) := by
  induction files with
  | nil => intro idx s hev; simp [streamFiles] at hev
  | cons file rest ih =>
    intro idx s hev
    rcases streamFiles_cons_cases sep v idx file rest s with
      ⟨hq, heq⟩ | ⟨hq, e', ho, heq⟩ | ⟨hq, c', e', _, _, heq⟩ | ⟨hq, c', _, _, heq⟩
    · rw [heq] at hev ⊢
      rw [installable_cons_neg sep idx file rest hq]
      exact ih (idx + 1) s hev
    · rw [heq] at hev ⊢
      simp only [List.mem_singleton, Event.openFailed.injEq] at hev
      subst hev
      rw [installable_cons_pos sep i file rest hq]
      exact ⟨file, e', List.mem_cons_self _ _, ho, rfl⟩
    · rw [heq] at hev
      simp [entryEvents] at hev
    · rw [heq] at hev ⊢
      simp only [entryEvents, List.mem_append, List.mem_cons, List.mem_singleton,
        List.not_mem_nil, or_false, reduceCtorEq, false_or] at hev
      obtain ⟨f, e0, h1, h2, h3⟩ := ih (idx + 1) _ hev
      rw [installable_cons_pos sep idx file rest hq]
      exact ⟨f, e0, List.mem_cons_of_mem _ h1, h2, h3⟩

theorem ApplyZip_of_baseDir_none {σ ω : Type} (h : Host)
    (exe : Except GoError GoString)
    (OpenReader : GoString → Except GoError (List File)) (Apply : Installer σ ω)
    (zipfile : GoString) (opts : Options ω) (w : World σ ω)
    (hbase : baseDir h exe opts.TargetPath = none) :
    ∃ e, opts.TargetPath = [] ∧ exe = .error e ∧
      ApplyZip h exe OpenReader Apply zipfile opts w
        = ⟨w, [], some (.wrapped "executable path" e)⟩ := by
  unfold baseDir at hbase
  unfold ApplyZip
  by_cases ht : opts.TargetPath = []
  · rw [if_pos ht] at hbase ⊢
    cases exe with
    | error e => exact ⟨e, ht, rfl, rfl⟩
    | ok p => simp at hbase
  · rw [if_neg ht] at hbase
    cases hbase

/-- A walk that returns `nil` has opened and visited every installable entry,
each visit returning `nil`. -/
theorem streamFiles_of_nil {σ : Type} (sep : Char) (v : Visitor σ) (files : List File) :
    ∀ (idx : Nat) (s : σ),
      (streamFiles sep v idx files s).err = none →
      (∀ p ∈ installable sep idx files, p.2.opens = true)
      ∧ (streamFiles sep v idx files s).trace
          = (installable sep idx files).flatMap (fun p => entryEvents p.1 p.2 none) := by
  induction files with
  | nil => intro idx s _; simp [streamFiles, installable]
  | cons file rest ih =>
    intro idx s herr
    rcases streamFiles_cons_cases sep v idx file rest s with
      ⟨hq, heq⟩ | ⟨_, e', _, heq⟩ | ⟨_, c', e', _, _, heq⟩ | ⟨hq, c', ho, _, heq⟩
    · rw [heq] at herr ⊢
      rw [installable_cons_neg sep idx file rest hq]
      exact ih (idx + 1) s herr
    · rw [heq] at herr; cases herr
    · rw [heq] at herr; cases herr
    · rw [heq] at herr ⊢
      obtain ⟨h1, h2⟩ := ih (idx + 1) _ herr
      rw [installable_cons_pos sep idx file rest hq]
      refine ⟨?_, ?_⟩
      · intro p hp
        rcases List.mem_cons.1 hp with hp | hp
        · subst hp
          simp [File.opens, ho]
        · exact h1 p hp
      · simp only [List.flatMap_cons, h2]

/-- An installable entry whose stream does not open makes the walk fail, and
nothing at or after it is opened or visited. -/
theorem streamFiles_of_unopenable {σ : Type} (sep : Char) (v : Visitor σ)
    (files : List File) (i : Nat) (f : File) (e0 : GoError) (ho : f.Open = .error e0) :
    ∀ (idx : Nat) (s : σ),
      (i, f) ∈ installable sep idx files →
      (streamFiles sep v idx files s).err ≠ none
      ∧ ∀ ev ∈ (streamFiles sep v idx files s).trace, ev.idx < i ∨ ev = .openFailed i := by
  induction files with
  | nil => intro idx s hmem; simp [installable] at hmem
  | cons file rest ih =>
    intro idx s hmem
    rcases streamFiles_cons_cases sep v idx file rest s with
      ⟨hq, heq⟩ | ⟨hq, e', ho', heq⟩ | ⟨hq, c', e', ho', _, heq⟩ | ⟨hq, c', ho', _, heq⟩
    · rw [heq]
      rw [installable_cons_neg sep idx file rest hq] at hmem
      exact ih (idx + 1) s hmem
    · rw [heq]
      rw [installable_cons_pos sep idx file rest hq] at hmem
      refine ⟨by simp, ?_⟩
      intro ev hev
      simp only [List.mem_singleton] at hev
      subst hev
      rcases List.mem_cons.1 hmem with hm | hm
      · cases hm
        exact Or.inr rfl
      · exact Or.inl (le_of_mem_installable sep (idx + 1) rest _ hm)
    · rw [heq]
      rw [installable_cons_pos sep idx file rest hq] at hmem
      refine ⟨by simp, ?_⟩
      have hlt : idx < i := by
        rcases List.mem_cons.1 hmem with hm | hm
        · cases hm
          rw [ho] at ho'
          cases ho'
        · exact le_of_mem_installable sep (idx + 1) rest _ hm
      intro ev hev
      simp only [entryEvents, List.mem_cons, List.mem_singleton, List.not_mem_nil,
        or_false] at hev
      rcases hev with h | h | h <;> subst h <;> exact Or.inl hlt
    · rw [heq]
      rw [installable_cons_pos sep idx file rest hq] at hmem
      have hm : (i, f) ∈ installable sep (idx + 1) rest := by
        rcases List.mem_cons.1 hmem with hm | hm
        · cases hm
          rw [ho] at ho'
          cases ho'
        · exact hm
      have hlt : idx < i := le_of_mem_installable sep (idx + 1) rest _ hm
      obtain ⟨h1, h2⟩ := ih (idx + 1) (v s file.Name c').1 hm
      refine ⟨h1, ?_⟩
      intro ev hev
      simp only [entryEvents, List.mem_append, List.mem_cons, List.mem_singleton,
        List.not_mem_nil, or_false] at hev
      rcases hev with (h | h | h) | h
      · subst h; exact Or.inl hlt
      · subst h; exact Or.inl hlt
      · subst h; exact Or.inl hlt
      · exact h2 ev h

/-- Every event of a walk is about an installable entry. -/
theorem mem_installable_of_mem_trace {σ : Type} (sep : Char) (v : Visitor σ)
    (files : List File) :
    ∀ (idx : Nat) (s : σ), ∀ ev ∈ (streamFiles sep v idx files s).trace,
      ∃ f, (ev.idx, f) ∈ installable sep idx files := by
  induction files with
  | nil => intro idx s ev hev; simp [streamFiles] at hev
  | cons file rest ih =>
    intro idx s ev hev
    rcases streamFiles_cons_cases sep v idx file rest s with
      ⟨hq, heq⟩ | ⟨hq, e, _, heq⟩ | ⟨hq, c, e, _, _, heq⟩ | ⟨hq, c, _, _, heq⟩
    · rw [heq] at hev
      rw [installable_cons_neg sep idx file rest hq]
      exact ih (idx + 1) s ev hev
    · rw [heq] at hev
      rw [installable_cons_pos sep idx file rest hq]
      simp only [List.mem_singleton] at hev
      subst hev
      exact ⟨file, List.mem_cons_self _ _⟩
    · rw [heq] at hev
      rw [installable_cons_pos sep idx file rest hq]
      simp only [entryEvents, List.mem_cons, List.mem_singleton, List.not_mem_nil,
        or_false] at hev
      rcases hev with h | h | h <;> subst h <;> exact ⟨file, List.mem_cons_self _ _⟩
    · rw [heq] at hev
      rw [installable_cons_pos sep idx file rest hq]
      simp only [entryEvents, List.mem_append, List.mem_cons, List.mem_singleton,
        List.not_mem_nil, or_false] at hev
      rcases hev with (h | h | h) | h
      · subst h; exact ⟨file, List.mem_cons_self _ _⟩
      · subst h; exact ⟨file, List.mem_cons_self _ _⟩
      · subst h; exact ⟨file, List.mem_cons_self _ _⟩
      · obtain ⟨f, hf⟩ := ih (idx + 1) _ ev h
        exact ⟨f, List.mem_cons_of_mem _ hf⟩

theorem of_mem_installable_zero (sep : Char) (files : List File) (i : Nat) (f : File)
    (hmem : (i, f) ∈ installable sep 0 files) :
    files[i]? = some f ∧ shouldIgnore sep f = false ∧ f.IsDir = false := by
  obtain ⟨h1, h2⟩ := List.mem_filter.1 hmem
  have h3 := (List.mk_mem_enumFrom_iff_le_and_getElem?_sub).1 h1
  simp only [qualifies, Bool.and_eq_true, Bool.not_eq_true'] at h2
  exact ⟨by simpa using h3.2, h2.1, h2.2⟩

theorem streamFiles_disciplined {σ : Type} (sep : Char) (v : Visitor σ)
    (files : List File) :
    ∀ (idx : Nat) (s : σ), Disciplined (streamFiles sep v idx files s).trace := by
  induction files with
  | nil => intro idx s; exact Disciplined.done
  | cons file rest ih =>
    intro idx s
    rcases streamFiles_cons_cases sep v idx file rest s with
      ⟨_, heq⟩ | ⟨_, e, _, heq⟩ | ⟨_, c, e, _, _, heq⟩ | ⟨_, c, _, _, heq⟩
    · rw [heq]; exact ih (idx + 1) s
    · rw [heq]; exact Disciplined.failed idx
    · rw [heq]; exact Disciplined.entry idx _ _ _ [] Disciplined.done
    · rw [heq]; exact Disciplined.entry idx _ _ _ _ (ih (idx + 1) _)

theorem Disciplined.openStreams_take {t : List Event} (ht : Disciplined t) :
    ∀ k, (openStreams [] (t.take k)).length ≤ 1 := by
  induction ht with
  | done => intro k; simp [openStreams]
  | failed i => intro k; cases k <;> simp [openStreams]
  | entry i name c r rest _ ih =>
    intro k
    match k with
    | 0 => simp [openStreams]
    | 1 => simp [openStreams]
    | 2 => simp [openStreams]
    | k + 3 => simpa [openStreams] using ih k

theorem Disciplined.openStreams_eq_nil {t : List Event} (ht : Disciplined t) :
    openStreams [] t = [] := by
  induction ht with
  | done => rfl
  | failed i => rfl
  | entry i name c r rest _ ih => simpa [openStreams] using ih

theorem Disciplined.after_open {t : List Event} (ht : Disciplined t) :
    ∀ k i, t[k]? = some (.openStream i) →
      (∃ name c r, t[k + 1]? = some (.visit i name c r))
      ∧ t[k + 2]? = some (.closeStream i) := by
  induction ht with
  | done => intro k i h; simp at h
  | failed j => intro k i h; cases k <;> simp at h
  | entry j name c r rest _ ih =>
    intro k i h
    match k with
    | 0 =>
      simp only [List.getElem?_cons_zero, Option.some.injEq, Event.openStream.injEq] at h
      subst h
      exact ⟨⟨name, c, r, by simp⟩, by simp⟩
    | 1 => simp at h
    | 2 => simp at h
    | k + 3 =>
      simp only [List.getElem?_cons_succ] at h ⊢
      exact ih k i h

theorem Disciplined.during_visit {t : List Event} (ht : Disciplined t) :
    ∀ k i name c r, t[k]? = some (.visit i name c r) →
      openStreams [] (t.take k) = [i] := by
  induction ht with
  | done => intro k i name c r h; simp at h
  | failed j => intro k i name c r h; cases k <;> simp at h
  | entry j name' c' r' rest _ ih =>
    intro k i name c r h
    match k with
    | 0 => simp at h
    | 1 =>
      simp only [List.getElem?_cons_succ, List.getElem?_cons_zero, Option.some.injEq,
        Event.visit.injEq] at h
      obtain ⟨hj, _⟩ := h
      subst hj
      rfl
    | 2 => simp at h
    | k + 3 =>
      simp only [List.getElem?_cons_succ] at h
      simpa [openStreams] using ih k i name c r h

/-! ## Lemmas on `splitSeq` -/

theorem splitSeqFrom_eq_go (sep : Char) (s : GoString) :
    ∀ cur : List Char,
      splitSeqFrom sep cur s = List.splitOnP.go (fun x => x == sep) s cur := by
  induction s with
  | nil => intro cur; rfl
  | cons c cs ih =>
    intro cur
    by_cases hc : c = sep
    · simp [splitSeqFrom, List.splitOnP.go, hc, ih]
    · simp [splitSeqFrom, List.splitOnP.go, hc, ih]

theorem splitSeq_eq_splitOn (sep : Char) (s : GoString) :
    splitSeq sep s = s.splitOn sep := by
  simp [splitSeq, List.splitOn, List.splitOnP, splitSeqFrom_eq_go]

theorem splitSeqFrom_no_sep (sep : Char) (s : GoString) :
    ∀ cur : List Char, sep ∉ cur → ∀ seg ∈ splitSeqFrom sep cur s, sep ∉ seg := by
  induction s with
  | nil =>
    intro cur hcur seg hseg
    simp [splitSeqFrom] at hseg
    subst hseg
    simpa using hcur
  | cons c cs ih =>
    intro cur hcur seg hseg
    by_cases hc : c = sep
    · simp only [splitSeqFrom, hc, if_true, List.mem_cons] at hseg
      rcases hseg with hseg | hseg
      · subst hseg
        simpa using hcur
      · exact ih [] (by simp) seg hseg
    · simp only [splitSeqFrom, hc, if_false] at hseg
      refine ih (c :: cur) ?_ seg hseg
      simp only [List.mem_cons, not_or]
      exact ⟨fun h => hc h.symm, hcur⟩

/-- The fragments of `splitSeq` are the one way to cut the string at every
separator: a non-empty list of separator-free pieces which, joined by the
separator, give the string back. -/
theorem splitSeq_eq_iff (sep : Char) (s : GoString) (segs : List GoString) :
    splitSeq sep s = segs
      ↔ segs ≠ [] ∧ (∀ seg ∈ segs, sep ∉ seg) ∧ List.intercalate [sep] segs = s := by
  constructor
  · intro h
    subst h
    refine ⟨?_, splitSeqFrom_no_sep sep s [] (by simp), ?_⟩
    · rw [splitSeq_eq_splitOn]
      exact List.splitOnP_ne_nil _ _
    · rw [splitSeq_eq_splitOn]
      exact List.intercalate_splitOn s sep
  · rintro ⟨hne, hno, hs⟩
    subst hs
    rw [splitSeq_eq_splitOn]
    exact List.splitOn_intercalate segs sep hno hne

theorem containsPath_iff (p : GoString) :
    containsPath p = true ↔ p = ".DS_Store".toList ∨ p = "__MACOSX".toList := by
  unfold containsPath ignorePaths
  simp only [List.any_cons, List.any_nil, Bool.or_false, Bool.or_eq_true, decide_eq_true_eq]
  constructor
  · rintro (h | h)
    · exact Or.inl h.symm
    · exact Or.inr h.symm
  · rintro (h | h)
    · exact Or.inl h.symm
    · exact Or.inr h.symm

/-! ## Lemmas on `filepath.Clean` -/

theorem notSeparator_slash : notSeparator '/' = false := by decide

theorem notSeparator_of_ne {c : Char} (hc : c ≠ '/') : notSeparator c = true := by
  simp [notSeparator, hc]

theorem atElemEnd_append (t q : GoString) : atElemEnd (t ++ '/' :: q) = atElemEnd t := by
  cases t with
  | nil => simp [atElemEnd]
  | cons x t => rfl

theorem dropWhile_append_slash (l q : GoString) :
    (l ++ '/' :: q).dropWhile notSeparator = l.dropWhile notSeparator ++ '/' :: q := by
  induction l with
  | nil => simp [List.dropWhile, notSeparator_slash]
  | cons x l ih =>
    cases hx : notSeparator x with
    | true => simp [List.dropWhile, hx, ih]
    | false => simp [List.dropWhile, hx]

theorem takeWhile_append_slash (l q : GoString) :
    (l ++ '/' :: q).takeWhile notSeparator = l.takeWhile notSeparator := by
  induction l with
  | nil => simp [List.takeWhile, notSeparator_slash]
  | cons x l ih =>
    cases hx : notSeparator x with
    | true => simp [List.takeWhile, hx, ih]
    | false => simp [List.takeWhile, hx]

theorem length_dropWhile_le (l : GoString) :
    (l.dropWhile notSeparator).length ≤ l.length := by
  induction l with
  | nil => simp
  | cons x l ih =>
    cases hx : notSeparator x with
    | true =>
      simp only [List.dropWhile, hx, List.length_cons]
      exact Nat.le_succ_of_le ih
    | false => simp [List.dropWhile, hx]

theorem cleanLoop_nil (rooted : Bool) (fuel : Nat) (out : GoString) (dotdot : Nat) :
    cleanLoop rooted fuel ⟨[], out, dotdot⟩ = ⟨[], out, dotdot⟩ := by
  cases fuel <;> rfl

theorem cleanLoop_cons (rooted : Bool) (fuel : Nat) (c : Char) (t out : GoString)
    (dotdot : Nat) :
    cleanLoop rooted (fuel + 1) ⟨c :: t, out, dotdot⟩
      = cleanLoop rooted fuel (cleanStep rooted c t out dotdot) := rfl

theorem cleanStep_slash (rooted : Bool) (t out : GoString) (dotdot : Nat) :
    cleanStep rooted '/' t out dotdot = ⟨t, out, dotdot⟩ := by
  simp [cleanStep]

theorem cleanStep_dot (rooted : Bool) (c : Char) (t out : GoString) (dotdot : Nat)
    (h1 : c ≠ '/') (h2 : c = '.' ∧ atElemEnd t = true) :
    cleanStep rooted c t out dotdot = ⟨t, out, dotdot⟩ := by
  unfold cleanStep
  rw [if_neg h1, if_pos h2]

theorem cleanStep_dotdot (rooted : Bool) (c : Char) (t out : GoString) (dotdot : Nat)
    (h1 : c ≠ '/') (h2 : ¬ (c = '.' ∧ atElemEnd t = true))
    (h3 : c = '.' ∧ t.head? = some '.' ∧ atElemEnd t.tail = true) :
    cleanStep rooted c t out dotdot
      = if dotdot < out.length then
          ⟨t.tail, out.take (backtrack out dotdot (out.length - 1)), dotdot⟩
        else if rooted = false then
          ⟨t.tail, (if 0 < out.length then out ++ ['/'] else out) ++ ['.', '.'],
            ((if 0 < out.length then out ++ ['/'] else out) ++ ['.', '.']).length⟩
        else ⟨t.tail, out, dotdot⟩ := by
  unfold cleanStep
  rw [if_neg h1, if_neg h2, if_pos h3]

theorem cleanStep_elem (rooted : Bool) (c : Char) (t out : GoString) (dotdot : Nat)
    (h1 : c ≠ '/') (h2 : ¬ (c = '.' ∧ atElemEnd t = true))
    (h3 : ¬ (c = '.' ∧ t.head? = some '.' ∧ atElemEnd t.tail = true)) :
    cleanStep rooted c t out dotdot
      = ⟨(c :: t).dropWhile notSeparator,
          (if (rooted = true ∧ out.length ≠ 1) ∨ (rooted = false ∧ out.length ≠ 0)
            then out ++ ['/'] else out) ++ (c :: t).takeWhile notSeparator,
          dotdot⟩ := by
  unfold cleanStep
  rw [if_neg h1, if_neg h2, if_neg h3]

/-- An iteration consumes at least the byte it looks at. -/
theorem cleanStep_rest_length (rooted : Bool) (c : Char) (t out : GoString) (dotdot : Nat) :
    (cleanStep rooted c t out dotdot).rest.length ≤ t.length := by
  by_cases h1 : c = '/'
  · subst h1
    rw [cleanStep_slash]
  · by_cases h2 : c = '.' ∧ atElemEnd t = true
    · rw [cleanStep_dot rooted c t out dotdot h1 h2]
    · by_cases h3 : c = '.' ∧ t.head? = some '.' ∧ atElemEnd t.tail = true
      · rw [cleanStep_dotdot rooted c t out dotdot h1 h2 h3]
        split_ifs <;> simp
      · rw [cleanStep_elem rooted c t out dotdot h1 h2 h3]
        have hc : notSeparator c = true := notSeparator_of_ne h1
        simp only [List.dropWhile, hc]
        exact length_dropWhile_le t

/-- The loop's result does not depend on the fuel once there is enough of it. -/
theorem cleanLoop_fuel (rooted : Bool) :
    ∀ (f1 f2 : Nat) (st : CleanState), st.rest.length ≤ f1 → st.rest.length ≤ f2 →
      cleanLoop rooted f1 st = cleanLoop rooted f2 st := by
  intro f1
  induction f1 with
  | zero =>
    intro f2 st h1 _
    obtain ⟨rest, out, dotdot⟩ := st
    have : rest = [] := List.length_eq_zero.1 (Nat.le_zero.1 h1)
    subst this
    rw [cleanLoop_nil, cleanLoop_nil]
  | succ f1 ih =>
    intro f2 st h1 h2
    obtain ⟨rest, out, dotdot⟩ := st
    cases rest with
    | nil => rw [cleanLoop_nil, cleanLoop_nil]
    | cons c t =>
      cases f2 with
      | zero => simp at h2
      | succ f2 =>
        rw [cleanLoop_cons, cleanLoop_cons]
        have hlen := cleanStep_rest_length rooted c t out dotdot
        simp only [List.length_cons] at h1 h2
        exact ih f2 _ (by omega) (by omega)

/-- With `len(path)` iterations the loop reads the whole path: it ends with
`r == n`. -/
theorem cleanLoop_rest (rooted : Bool) :
    ∀ (fuel : Nat) (st : CleanState), st.rest.length ≤ fuel →
      (cleanLoop rooted fuel st).rest = [] := by
  intro fuel
  induction fuel with
  | zero =>
    intro st h
    exact List.length_eq_zero.1 (Nat.le_zero.1 h)
  | succ fuel ih =>
    intro st h
    obtain ⟨rest, out, dotdot⟩ := st
    cases rest with
    | nil => rw [cleanLoop_nil]
    | cons c t =>
      rw [cleanLoop_cons]
      have hlen := cleanStep_rest_length rooted c t out dotdot
      simp only [List.length_cons] at h
      exact ih _ (by omega)

theorem cleanRun_rest (path : GoString) : (cleanRun path).rest = [] := by
  cases path with
  | nil => rfl
  | cons c t =>
    by_cases hc : c = '/'
    · simp only [cleanRun, if_pos hc]
      exact cleanLoop_rest true _ _ (by simp)
    · simp only [cleanRun, if_neg hc]
      exact cleanLoop_rest false _ _ (by simp)

/-- What an iteration does is decided by the bytes up to the next separator. -/
theorem cleanStep_append (rooted : Bool) (c : Char) (t q out : GoString) (dotdot : Nat) :
    cleanStep rooted c (t ++ '/' :: q) out dotdot
      = ⟨(cleanStep rooted c t out dotdot).rest ++ '/' :: q,
          (cleanStep rooted c t out dotdot).out,
          (cleanStep rooted c t out dotdot).dotdot⟩ := by
  have hdots : ((t ++ '/' :: q).head? = some '.' ∧ atElemEnd (t ++ '/' :: q).tail = true)
      ↔ (t.head? = some '.' ∧ atElemEnd t.tail = true) := by
    cases t with
    | nil => simp
    | cons x t => simp [atElemEnd_append]
  have htail : t.head? = some '.' → (t ++ '/' :: q).tail = t.tail ++ '/' :: q := by
    cases t with
    | nil => simp
    | cons x t => simp
  by_cases h1 : c = '/'
  · subst h1
    rw [cleanStep_slash, cleanStep_slash]
  · by_cases h2 : c = '.' ∧ atElemEnd t = true
    · have h2' : c = '.' ∧ atElemEnd (t ++ '/' :: q) = true := by
        rw [atElemEnd_append]; exact h2
      rw [cleanStep_dot rooted c t out dotdot h1 h2,
        cleanStep_dot rooted c _ out dotdot h1 h2']
    · have h2' : ¬ (c = '.' ∧ atElemEnd (t ++ '/' :: q) = true) := by
        rw [atElemEnd_append]; exact h2
      by_cases h3 : c = '.' ∧ t.head? = some '.' ∧ atElemEnd t.tail = true
      · have h3' : c = '.' ∧ (t ++ '/' :: q).head? = some '.'
            ∧ atElemEnd (t ++ '/' :: q).tail = true := ⟨h3.1, hdots.2 h3.2⟩
        rw [cleanStep_dotdot rooted c t out dotdot h1 h2 h3,
          cleanStep_dotdot rooted c _ out dotdot h1 h2' h3', htail h3.2.1]
        split_ifs <;> rfl
      · have h3' : ¬ (c = '.' ∧ (t ++ '/' :: q).head? = some '.'
            ∧ atElemEnd (t ++ '/' :: q).tail = true) := fun h => h3 ⟨h.1, hdots.1 h.2⟩
        rw [cleanStep_elem rooted c t out dotdot h1 h2 h3,
          cleanStep_elem rooted c _ out dotdot h1 h2' h3']
        have e1 : (c :: (t ++ '/' :: q)) = (c :: t) ++ '/' :: q := rfl
        rw [e1, dropWhile_append_slash, takeWhile_append_slash]

/-- Cleaning `p/q` is cleaning `p`, then going on with `q`. -/
theorem cleanLoop_append (rooted : Bool) (q : GoString) :
    ∀ (n : Nat) (p out : GoString) (dotdot f1 f2 f3 : Nat), p.length ≤ n →
      p.length + 1 + q.length ≤ f1 → p.length ≤ f2 → q.length ≤ f3 →
      cleanLoop rooted f1 ⟨p ++ '/' :: q, out, dotdot⟩
        = cleanLoop rooted f3 ⟨q, (cleanLoop rooted f2 ⟨p, out, dotdot⟩).out,
            (cleanLoop rooted f2 ⟨p, out, dotdot⟩).dotdot⟩ := by
  intro n
  induction n with
  | zero =>
    intro p out dotdot f1 f2 f3 hn h1 _ h3
    have : p = [] := List.length_eq_zero.1 (Nat.le_zero.1 hn)
    subst this
    cases f1 with
    | zero => simp at h1
    | succ f1 =>
      rw [cleanLoop_nil, List.nil_append, cleanLoop_cons]
      rw [cleanStep_slash]
      simp only [List.length_nil] at h1
      exact cleanLoop_fuel rooted f1 f3 _ (by simp; omega) (by simpa using h3)
  | succ n ih =>
    intro p out dotdot f1 f2 f3 hn h1 h2 h3
    cases p with
    | nil => exact ih [] out dotdot f1 f2 f3 (Nat.zero_le _) h1 h2 h3
    | cons c t =>
      have hlen := cleanStep_rest_length rooted c t out dotdot
      simp only [List.length_cons] at hn h1 h2
      cases f1 with
      | zero => omega
      | succ f1 =>
        cases f2 with
        | zero => omega
        | succ f2 =>
          rw [List.cons_append, cleanLoop_cons, cleanLoop_cons, cleanStep_append]
          exact ih _ _ _ f1 f2 f3 (by omega) (by omega) (by omega) h3

theorem cleanRun_append (base name : GoString) (hbase : base ≠ []) :
    cleanRun (base ++ '/' :: name)
      = cleanLoop (decide (base.head? = some '/')) name.length
          ⟨name, (cleanRun base).out, (cleanRun base).dotdot⟩ := by
  cases base with
  | nil => exact absurd rfl hbase
  | cons c t =>
    by_cases hc : c = '/'
    · subst hc
      simp only [cleanRun, List.cons_append, if_true, List.head?_cons, decide_True]
      exact cleanLoop_append true name t.length t ['/'] 1 _ _ _ (Nat.le_refl _)
        (by simp; omega) (by simp) (Nat.le_refl _)
    · have hd : decide ((c :: t).head? = some '/') = false := by simp [hc]
      rw [hd]
      simp only [cleanRun, List.cons_append, if_neg hc]
      exact cleanLoop_append false name (c :: t).length (c :: t) [] 0 _ _ _ (Nat.le_refl _)
        (by simp; omega) (by simp) (Nat.le_refl _)

/-! ### Segments -/

theorem splitSeqFrom_slash (s : GoString) :
    ∀ cur : List Char,
      splitSeqFrom '/' cur s
        = (cur.reverse ++ s.takeWhile notSeparator)
          :: (match s.dropWhile notSeparator with
              | [] => []
              | _ :: u => splitSeqFrom '/' [] u) := by
  induction s with
  | nil => intro cur; simp [splitSeqFrom]
  | cons c cs ih =>
    intro cur
    by_cases hc : c = '/'
    · subst hc
      simp [splitSeqFrom, List.takeWhile, List.dropWhile, notSeparator_slash]
    · have hn : notSeparator c = true := notSeparator_of_ne hc
      simp only [splitSeqFrom, if_neg hc, List.takeWhile, List.dropWhile, hn]
      rw [ih (c :: cur)]
      simp

theorem takeWhile_mem_splitSeq (s : GoString) :
    s.takeWhile notSeparator ∈ splitSeq '/' s := by
  unfold splitSeq
  rw [splitSeqFrom_slash]
  simp

theorem splitSeq_slash_cons (u : GoString) :
    splitSeq '/' ('/' :: u) = [] :: splitSeq '/' u := by
  simp [splitSeq, splitSeqFrom]

theorem head_dropWhile_notSeparator (s : GoString) (x : Char) (u : GoString)
    (h : s.dropWhile notSeparator = x :: u) : x = '/' := by
  induction s with
  | nil => simp at h
  | cons c cs ih =>
    cases hc : notSeparator c with
    | true =>
      simp only [List.dropWhile, hc] at h
      exact ih h
    | false =>
      simp only [List.dropWhile, hc, List.cons.injEq] at h
      obtain ⟨h1, _⟩ := h
      subst h1
      simpa [notSeparator] using hc

theorem mem_splitSeq_of_dropWhile (s : GoString) (x : Char) (u : GoString)
    (h : s.dropWhile notSeparator = x :: u) :
    ∀ seg ∈ splitSeq '/' u, seg ∈ splitSeq '/' s := by
  intro seg hseg
  unfold splitSeq at hseg ⊢
  rw [splitSeqFrom_slash s, h]
  exact List.mem_cons_of_mem _ hseg

theorem splitSeq_nil : splitSeq '/' [] = [[]] := rfl

theorem NoDotDot_dropWhile (s : GoString) (h : NoDotDot s) :
    NoDotDot (s.dropWhile notSeparator) := by
  cases hd : s.dropWhile notSeparator with
  | nil => simp [NoDotDot, splitSeq_nil]
  | cons x u =>
    have hx := head_dropWhile_notSeparator s x u hd
    subst hx
    intro hmem
    rw [splitSeq_slash_cons] at hmem
    rcases List.mem_cons.1 hmem with h1 | h1
    · cases h1
    · exact h (mem_splitSeq_of_dropWhile s '/' u hd _ h1)

theorem Normal_of_dropWhile (s : GoString) (x : Char) (u : GoString) (h : Normal s)
    (hd : s.dropWhile notSeparator = x :: u) : Normal u :=
  fun seg hseg => h seg (mem_splitSeq_of_dropWhile s x u hd seg hseg)

theorem takeWhile_of_atElemEnd (c : Char) (t : GoString) (hc : c ≠ '/')
    (ht : atElemEnd t = true) : (c :: t).takeWhile notSeparator = [c] := by
  have hn : notSeparator c = true := notSeparator_of_ne hc
  cases t with
  | nil => simp [List.takeWhile, hn]
  | cons x t =>
    have hx : x = '/' := by simpa [atElemEnd] using ht
    subst hx
    simp [List.takeWhile, hn, notSeparator_slash]

theorem dropWhile_of_atElemEnd (c : Char) (t : GoString) (hc : c ≠ '/')
    (ht : atElemEnd t = true) : (c :: t).dropWhile notSeparator = t := by
  have hn : notSeparator c = true := notSeparator_of_ne hc
  cases t with
  | nil => simp [List.dropWhile, hn]
  | cons x t =>
    have hx : x = '/' := by simpa [atElemEnd] using ht
    subst hx
    simp [List.dropWhile, hn, notSeparator_slash]

theorem takeWhile_dotdot (t : GoString) (h1 : t.head? = some '.')
    (h2 : atElemEnd t.tail = true) : ('.' :: t).takeWhile notSeparator = ['.', '.'] := by
  cases t with
  | nil => simp at h1
  | cons x t' =>
    have hx : x = '.' := by simpa using h1
    subst hx
    have hd : notSeparator '.' = true := by decide
    have := takeWhile_of_atElemEnd '.' t' (by decide) h2
    simp only [List.takeWhile, hd] at this ⊢
    rw [this]

/-! ### Names without `..` only add to the buffer -/

/-- On a name without `..`, an iteration leaves the buffer as it is or appends
to it an element, after a separator unless the buffer is empty or the root. -/
theorem cleanStep_of_noDotDot (rooted : Bool) (c : Char) (t out : GoString) (dotdot : Nat)
    (h : NoDotDot (c :: t)) :
    NoDotDot (cleanStep rooted c t out dotdot).rest
    ∧ ∃ piece, (cleanStep rooted c t out dotdot).out = out ++ piece
        ∧ (piece = [] ∨ piece.head? = some '/'
            ∨ (rooted = true ∧ out.length = 1) ∨ (rooted = false ∧ out.length = 0)) := by
  by_cases h1 : c = '/'
  · subst h1
    rw [cleanStep_slash]
    refine ⟨?_, [], by simp, Or.inl rfl⟩
    intro hm
    apply h
    rw [splitSeq_slash_cons]
    exact List.mem_cons_of_mem _ hm
  · by_cases h2 : c = '.' ∧ atElemEnd t = true
    · rw [cleanStep_dot rooted c t out dotdot h1 h2]
      refine ⟨?_, [], by simp, Or.inl rfl⟩
      have := NoDotDot_dropWhile _ h
      rwa [dropWhile_of_atElemEnd c t h1 h2.2] at this
    · by_cases h3 : c = '.' ∧ t.head? = some '.' ∧ atElemEnd t.tail = true
      · exfalso
        apply h
        have := takeWhile_mem_splitSeq (c :: t)
        rw [h3.1, takeWhile_dotdot t h3.2.1 h3.2.2] at this
        rw [h3.1]
        exact this
      · rw [cleanStep_elem rooted c t out dotdot h1 h2 h3]
        refine ⟨NoDotDot_dropWhile _ h, ?_⟩
        by_cases hs : (rooted = true ∧ out.length ≠ 1) ∨ (rooted = false ∧ out.length ≠ 0)
        · refine ⟨'/' :: (c :: t).takeWhile notSeparator, ?_, Or.inr (Or.inl rfl)⟩
          simp only [if_pos hs, List.append_assoc, List.singleton_append]
        · refine ⟨(c :: t).takeWhile notSeparator, ?_, Or.inr (Or.inr ?_)⟩
          · simp only [if_neg hs]
          · cases rooted with
            | true =>
              left
              refine ⟨rfl, ?_⟩
              by_contra hne
              exact hs (Or.inl ⟨rfl, hne⟩)
            | false =>
              right
              refine ⟨rfl, ?_⟩
              by_contra hne
              exact hs (Or.inr ⟨rfl, hne⟩)

theorem cleanLoop_of_noDotDot (rooted : Bool) :
    ∀ (fuel : Nat) (st : CleanState), NoDotDot st.rest →
      ∃ suffix, (cleanLoop rooted fuel st).out = st.out ++ suffix
        ∧ (suffix = [] ∨ suffix.head? = some '/'
            ∨ (rooted = true ∧ st.out.length = 1) ∨ (rooted = false ∧ st.out.length = 0)) := by
  intro fuel
  induction fuel with
  | zero => intro st _; exact ⟨[], by simp [cleanLoop], Or.inl rfl⟩
  | succ fuel ih =>
    intro st h
    obtain ⟨rest, out, dotdot⟩ := st
    cases rest with
    | nil => exact ⟨[], by simp [cleanLoop_nil], Or.inl rfl⟩
    | cons c t =>
      rw [cleanLoop_cons]
      obtain ⟨h1, piece, h2, h3⟩ := cleanStep_of_noDotDot rooted c t out dotdot h
      obtain ⟨suffix, h4, h5⟩ := ih _ h1
      refine ⟨piece ++ suffix, ?_, ?_⟩
      · rw [h4, h2, List.append_assoc]
      · rcases h3 with h3 | h3 | h3
        · subst h3
          simp only [List.append_nil] at h2
          rw [h2] at h5
          simpa using h5
        · right; left
          cases piece with
          | nil => simp at h3
          | cons x piece => simpa using h3
        · exact Or.inr (Or.inr h3)

/-! ### A rooted buffer keeps its leading separator -/

theorem le_backtrack (out : GoString) (dotdot : Nat) :
    ∀ w, dotdot ≤ w → dotdot ≤ backtrack out dotdot w := by
  intro w
  induction w with
  | zero => intro h; simpa [backtrack] using h
  | succ w ih =>
    intro h
    unfold backtrack
    split_ifs with hc
    · exact ih (Nat.le_of_lt_succ hc.1)
    · exact h

theorem cleanStep_rooted (c : Char) (t out : GoString) (dotdot : Nat)
    (hout : out.head? = some '/') (hdd : 1 ≤ dotdot) :
    (cleanStep true c t out dotdot).out.head? = some '/'
    ∧ (cleanStep true c t out dotdot).dotdot = dotdot := by
  by_cases h1 : c = '/'
  · subst h1
    rw [cleanStep_slash]
    exact ⟨hout, rfl⟩
  · by_cases h2 : c = '.' ∧ atElemEnd t = true
    · rw [cleanStep_dot true c t out dotdot h1 h2]
      exact ⟨hout, rfl⟩
    · by_cases h3 : c = '.' ∧ t.head? = some '.' ∧ atElemEnd t.tail = true
      · rw [cleanStep_dotdot true c t out dotdot h1 h2 h3]
        by_cases hb : dotdot < out.length
        · rw [if_pos hb]
          refine ⟨?_, rfl⟩
          have hle := le_backtrack out dotdot (out.length - 1) (by omega)
          cases out with
          | nil => simp at hout
          | cons x out =>
            have hx : x = '/' := by simpa using hout
            subst hx
            cases hk : backtrack ('/' :: out) dotdot (('/' :: out).length - 1) with
            | zero => rw [hk] at hle; omega
            | succ k => simp
        · rw [if_neg hb]
          simp [hout]
      · rw [cleanStep_elem true c t out dotdot h1 h2 h3]
        refine ⟨?_, rfl⟩
        cases out with
        | nil => simp at hout
        | cons x out =>
          have hx : x = '/' := by simpa using hout
          subst hx
          split_ifs <;> simp

theorem cleanLoop_rooted :
    ∀ (fuel : Nat) (st : CleanState), st.out.head? = some '/' → 1 ≤ st.dotdot →
      (cleanLoop true fuel st).out.head? = some '/' := by
  intro fuel
  induction fuel with
  | zero => intro st h _; exact h
  | succ fuel ih =>
    intro st h hdd
    obtain ⟨rest, out, dotdot⟩ := st
    cases rest with
    | nil => rw [cleanLoop_nil]; exact h
    | cons c t =>
      rw [cleanLoop_cons]
      obtain ⟨h1, h2⟩ := cleanStep_rooted c t out dotdot h hdd
      exact ih _ h1 (by rw [h2]; exact hdd)

theorem cleanRun_rooted (t : GoString) : (cleanRun ('/' :: t)).out.head? = some '/' := by
  simp only [cleanRun, if_true]
  exact cleanLoop_rooted _ _ rfl (Nat.le_refl _)

/-- Joining a name without `..` to a base other than the current directory
gives the cleaned base, followed by nothing or by a separator and more, unless
the cleaned base is the root. -/
theorem Join_beneath (base name : GoString) (hbase : Clean base ≠ ['.'])
    (hname : NoDotDot name) :
    ∃ suffix, Join base name = Clean base ++ suffix
      ∧ (suffix = [] ∨ suffix.head? = some '/' ∨ Clean base = ['/']) := by
  have hne : base ≠ [] := by
    intro h
    apply hbase
    simp [Clean, h]
  have hob : (cleanRun base).out ≠ [] := by
    intro h
    apply hbase
    simp [Clean, h]
  have hcb : Clean base = (cleanRun base).out := by
    simp [Clean, hne, hob]
  obtain ⟨suffix, h1, h2⟩ := cleanLoop_of_noDotDot (decide (base.head? = some '/'))
    name.length ⟨name, (cleanRun base).out, (cleanRun base).dotdot⟩ hname
  simp only at h1 h2
  have hj : Join base name = (cleanRun base).out ++ suffix := by
    have hx : base ++ '/' :: name ≠ [] := by simp
    have hout : (cleanRun (base ++ '/' :: name)).out ≠ [] := by
      rw [cleanRun_append base name hne, h1]
      simp [hob]
    unfold Join
    rw [if_pos hne]
    unfold Clean
    rw [if_neg hx, if_neg hout, cleanRun_append base name hne, h1]
  refine ⟨suffix, by rw [hj, hcb], ?_⟩
  rcases h2 with h2 | h2 | ⟨hr, hl⟩ | ⟨_, hl⟩
  · exact Or.inl h2
  · exact Or.inr (Or.inl h2)
  · right; right
    rw [hcb]
    cases base with
    | nil => exact absurd rfl hne
    | cons c t =>
      have hc : c = '/' := by simpa using hr
      subst hc
      have hh := cleanRun_rooted t
      cases ho : (cleanRun ('/' :: t)).out with
      | nil => rw [ho] at hl; simp at hl
      | cons x rest =>
        rw [ho] at hl hh
        have hx : x = '/' := by simpa using hh
        have hrest : rest = [] := by simpa using hl
        rw [hx, hrest]
  · exact absurd (List.length_eq_zero.1 hl) hob

/-! ### Paths of ordinary names are left as they are -/

theorem Normal_ne_nil (s : GoString) (h : Normal s) : s ≠ [] := by
  intro hs
  subst hs
  exact (h [] (by simp [splitSeq_nil])).1 rfl

theorem cleanLoop_of_normal (rooted : Bool) :
    ∀ (n : Nat) (name out : GoString) (dotdot fuel : Nat), name.length ≤ n →
      name.length ≤ fuel → Normal name →
      cleanLoop rooted fuel ⟨name, out, dotdot⟩
        = ⟨[], out ++ elemSeparator rooted out ++ name, dotdot⟩ := by
  intro n
  induction n with
  | zero =>
    intro name out dotdot fuel hn _ hnorm
    exact absurd (List.length_eq_zero.1 (Nat.le_zero.1 hn)) (Normal_ne_nil name hnorm)
  | succ n ih =>
    intro name out dotdot fuel hn hf hnorm
    cases name with
    | nil => exact absurd rfl (Normal_ne_nil [] hnorm)
    | cons c t =>
      have hfirst := hnorm _ (takeWhile_mem_splitSeq (c :: t))
      have h1 : c ≠ '/' := by
        intro hc
        subst hc
        exact hfirst.1 (by simp [List.takeWhile, notSeparator_slash])
      have h2 : ¬ (c = '.' ∧ atElemEnd t = true) := by
        rintro ⟨hc, ht⟩
        rw [takeWhile_of_atElemEnd c t h1 ht, hc] at hfirst
        exact hfirst.2.1 rfl
      have h3 : ¬ (c = '.' ∧ t.head? = some '.' ∧ atElemEnd t.tail = true) := by
        rintro ⟨hc, ht1, ht2⟩
        rw [hc, takeWhile_dotdot t ht1 ht2] at hfirst
        exact hfirst.2.2 rfl
      cases fuel with
      | zero => simp at hf
      | succ fuel =>
        rw [cleanLoop_cons, cleanStep_elem rooted c t out dotdot h1 h2 h3]
        have hsplit : (c :: t).takeWhile notSeparator ++ (c :: t).dropWhile notSeparator
            = c :: t := List.takeWhile_append_dropWhile _ _
        have hsep : (if (rooted = true ∧ out.length ≠ 1) ∨ (rooted = false ∧ out.length ≠ 0)
            then out ++ ['/'] else out) = out ++ elemSeparator rooted out := by
          unfold elemSeparator
          split_ifs <;> simp
        rw [hsep]
        have htw : (c :: t).takeWhile notSeparator ≠ [] := by
          simp [List.takeWhile, notSeparator_of_ne h1]
        have hdl : ((c :: t).dropWhile notSeparator).length ≤ t.length := by
          simp only [List.dropWhile, notSeparator_of_ne h1]
          exact length_dropWhile_le t
        cases hd : (c :: t).dropWhile notSeparator with
        | nil =>
          rw [cleanLoop_nil]
          rw [hd, List.append_nil] at hsplit
          rw [hsplit]
        | cons x u =>
          have hx := head_dropWhile_notSeparator _ x u hd
          subst hx
          have hu : Normal u := Normal_of_dropWhile _ _ u hnorm hd
          rw [hd] at hsplit hdl
          simp only [List.length_cons] at hdl hn hf
          cases fuel with
          | zero => omega
          | succ fuel =>
            rw [cleanLoop_cons, cleanStep_slash,
              ih u _ dotdot fuel (by omega) (by omega) hu]
            have hlen : 0 < ((c :: t).takeWhile notSeparator).length :=
              List.length_pos.2 htw
            have hs2 : elemSeparator rooted
                (out ++ elemSeparator rooted out ++ (c :: t).takeWhile notSeparator)
                  = ['/'] := by
              have hl : (out ++ elemSeparator rooted out
                  ++ (c :: t).takeWhile notSeparator).length
                  = out.length + (elemSeparator rooted out).length
                    + ((c :: t).takeWhile notSeparator).length := by
                simp only [List.length_append]
              have hcase : (rooted = true ∧ out.length ≠ 1 ∧ elemSeparator rooted out = ['/'])
                  ∨ (rooted = true ∧ out.length = 1)
                  ∨ rooted = false := by
                cases rooted with
                | true =>
                  by_cases ho : out.length = 1
                  · exact Or.inr (Or.inl ⟨rfl, ho⟩)
                  · exact Or.inl ⟨rfl, ho, by simp [elemSeparator, ho]⟩
                | false => exact Or.inr (Or.inr rfl)
              rw [elemSeparator, hl]
              rcases hcase with ⟨hr, _, hes⟩ | ⟨hr, ho⟩ | hr
              · rw [hes, if_pos (Or.inl ⟨hr, by simp; omega⟩)]
              · rw [if_pos (Or.inl ⟨hr, by omega⟩)]
              · rw [if_pos (Or.inr ⟨hr, by omega⟩)]
            rw [hs2]
            have : out ++ elemSeparator rooted out ++ (c :: t).takeWhile notSeparator
                ++ ['/'] ++ u = out ++ elemSeparator rooted out ++ (c :: t) := by
              conv_rhs => rw [← hsplit]
              simp
            rw [this]

theorem cleanRun_of_normal_rooted (b : GoString) (hb : Normal b) :
    cleanRun ('/' :: b) = ⟨[], '/' :: b, 1⟩ := by
  simp only [cleanRun, if_true]
  rw [cleanLoop_of_normal true b.length b ['/'] 1 _ (Nat.le_refl _) (by simp) hb]
  simp [elemSeparator]

theorem cleanRun_of_normal (b : GoString) (hb : Normal b) :
    cleanRun b = ⟨[], b, 0⟩ := by
  cases b with
  | nil => exact absurd rfl (Normal_ne_nil [] hb)
  | cons c t =>
    have hfirst := hb _ (takeWhile_mem_splitSeq (c :: t))
    have h1 : c ≠ '/' := by
      intro hc
      subst hc
      exact hfirst.1 (by simp [List.takeWhile, notSeparator_slash])
    simp only [cleanRun, if_neg h1]
    rw [cleanLoop_of_normal false (c :: t).length (c :: t) [] 0 _ (Nat.le_refl _)
      (Nat.le_refl _) hb]
    simp [elemSeparator]

/-- Joining ordinary names: for a base `/b` or `b` and a name, both made of
ordinary segments, `Join` is the base, a separator and the name. -/
theorem Join_of_normal (b name : GoString) (hb : Normal b) (hname : Normal name) :
    Join ('/' :: b) name = '/' :: b ++ '/' :: name
    ∧ Join b name = b ++ '/' :: name := by
  have hbne := Normal_ne_nil b hb
  have hlen : 0 < b.length := List.length_pos.2 hbne
  constructor
  · unfold Join Clean
    have hrun : cleanRun ('/' :: b ++ '/' :: name)
        = ⟨[], '/' :: b ++ '/' :: name, 1⟩ := by
      rw [cleanRun_append ('/' :: b) name (by simp), cleanRun_of_normal_rooted b hb]
      simp only [List.head?_cons, decide_True]
      rw [cleanLoop_of_normal true name.length name _ 1 _ (Nat.le_refl _) (Nat.le_refl _)
        hname]
      have : elemSeparator true ('/' :: b) = ['/'] := by
        unfold elemSeparator
        rw [if_pos]
        left
        exact ⟨rfl, by simp [hbne]⟩
      rw [this]
      simp
    rw [List.cons_append] at hrun
    simp [hrun]
  · unfold Join Clean
    have hd : decide (b.head? = some '/') = false := by
      cases b with
      | nil => exact absurd rfl hbne
      | cons c t =>
        have hfirst := hb _ (takeWhile_mem_splitSeq (c :: t))
        have h1 : c ≠ '/' := by
          intro hc
          subst hc
          exact hfirst.1 (by simp [List.takeWhile, notSeparator_slash])
        simp [h1]
    have hrun : cleanRun (b ++ '/' :: name) = ⟨[], b ++ '/' :: name, 0⟩ := by
      rw [cleanRun_append b name hbne, cleanRun_of_normal b hb, hd]
      simp only
      rw [cleanLoop_of_normal false name.length name _ 0 _ (Nat.le_refl _) (Nat.le_refl _)
        hname]
      have : elemSeparator false b = ['/'] := by
        simp [elemSeparator, hbne]
      rw [this]
      simp
    simp [hrun, hbne]

/-- The directory of an executable `/b/prog`, for `b` made of ordinary
segments, is `/b`. -/
theorem Dir_of_normal (b prog : GoString) (hb : Normal b) (hprog : '/' ∉ prog) :
    Dir ('/' :: b ++ '/' :: prog) = '/' :: b := by
  have hdrop : prog.reverse.dropWhile notSeparator = [] := by
    rw [List.dropWhile_eq_nil_iff]
    intro x hx
    have hx' : x ∈ prog := List.mem_reverse.1 hx
    have : x ≠ '/' := fun h => hprog (h ▸ hx')
    exact notSeparator_of_ne this
  have hpre : (('/' :: b ++ '/' :: prog).reverse.dropWhile notSeparator).reverse
      = '/' :: b ++ '/' :: [] := by
    have e : ('/' :: b ++ '/' :: prog).reverse = prog.reverse ++ '/' :: ('/' :: b).reverse := by
      simp
    rw [e, dropWhile_append_slash, hdrop]
    simp
  unfold Dir
  rw [hpre]
  have hrun : cleanRun ('/' :: b ++ '/' :: []) = ⟨[], '/' :: b, 1⟩ := by
    rw [cleanRun_append ('/' :: b) [] (by simp), cleanRun_of_normal_rooted b hb]
    rfl
  unfold Clean
  rw [List.cons_append] at hrun
  simp [hrun]

/-! ## The claims -/

/-- C1: when the archive opens, each installable entry's stream opens, the
target path is explicit and the installer never fails, `ApplyZip` returns `nil`
and calls the installer exactly once for each entry that is neither ignored
nor a directory, in archive order, and for no other entry; for the archive
`bin/tool`, `bin/`, `.DS_Store`, `docs/guide.txt` and target `/opt/app` the
calls are for `/opt/app/bin/tool`, then `/opt/app/docs/guide.txt`. -/
theorem ApplyZip_calls_installer_on_installable_entries {σ ω : Type} (h : Host)
    (exe : Except GoError GoString)
    (OpenReader : GoString → Except GoError (List File)) (Apply : Installer σ ω)
    (zipfile : GoString) (opts : Options ω) (w : World σ ω) (files : List File)
    (harchive : OpenReader zipfile = .ok files)
    (hstreams : ∀ f ∈ files, qualifies h.Separator f = true → f.opens = true)
    (htarget : opts.TargetPath ≠ [])
    (hinstaller : ∀ s rd o, (Apply s rd o).2 = none) :
    (ApplyZip h exe OpenReader Apply zipfile opts w).state.calls
        = w.calls ++ (files.filter (qualifies h.Separator)).map
            (fun f => (f.content,
              { opts with TargetPath := h.Join opts.TargetPath f.Name }))
    ∧ (ApplyZip h exe OpenReader Apply zipfile opts w).err = none
    ∧ ((ApplyZip unixHost exe (fun _ => .ok sampleArchive) Apply zipfile
          ⟨"/opt/app".toList, opts.Rest⟩ ⟨w.disk, []⟩).state.calls.map
            (fun c => c.2.TargetPath)
        = ["/opt/app/bin/tool".toList, "/opt/app/docs/guide.txt".toList]) := by
  have key : ∀ (h : Host) (OpenReader : GoString → Except GoError (List File))
      (opts : Options ω) (w : World σ ω) (files : List File),
      OpenReader zipfile = .ok files →
      (∀ f ∈ files, qualifies h.Separator f = true → f.opens = true) →
      opts.TargetPath ≠ [] →
      (ApplyZip h exe OpenReader Apply zipfile opts w).state.calls
          = w.calls ++ (files.filter (qualifies h.Separator)).map
              (fun f => (f.content,
                { opts with TargetPath := h.Join opts.TargetPath f.Name }))
      ∧ (ApplyZip h exe OpenReader Apply zipfile opts w).err = none := by
    intro h OpenReader opts w files harchive hstreams htarget
    have hb : baseDir h exe opts.TargetPath = some opts.TargetPath := by
      simp [baseDir, htarget]
    rw [ApplyZip_of_baseDir h exe OpenReader Apply zipfile opts w _ hb]
    simp only [streamZipFile, harchive]
    have hv : ∀ (s : World σ ω) n c, (dispatcher h Apply opts s n c).2 = none := by
      intro s n c
      simp [dispatcher, applyZipFile, callApply, hinstaller]
    obtain ⟨h1, h2⟩ := streamFiles_all_ok h.Separator (dispatcher h Apply opts) hv
      files 0 w hstreams
    refine ⟨?_, h1⟩
    rw [dispatcher_calls, h2, List.map_map]
    rfl
  refine ⟨(key h OpenReader opts w files harchive hstreams htarget).1,
    (key h OpenReader opts w files harchive hstreams htarget).2, ?_⟩
  have hs := (key unixHost (fun _ => .ok sampleArchive) ⟨"/opt/app".toList, opts.Rest⟩
    ⟨w.disk, []⟩ sampleArchive rfl (by decide) (by simp)).1
  rw [hs]
  simp only [List.nil_append, List.map_map, Function.comp_def]
  decide

/-- C1 at the scenario's archive, with an installer that accepts everything. -/
theorem ApplyZip_calls_installer_on_installable_entries_witness :
    (ApplyZip unixHost (.ok "/usr/bin/app".toList) (fun _ => .ok sampleArchive)
        (fun (s : Unit) _ _ => (s, none)) "update.zip".toList
        (⟨"/opt/app".toList, ()⟩ : Options Unit) ⟨(), []⟩).state.calls.map
          (fun c => c.2.TargetPath)
      = ["/opt/app/bin/tool".toList, "/opt/app/docs/guide.txt".toList] :=
  (ApplyZip_calls_installer_on_installable_entries unixHost
    (.ok "/usr/bin/app".toList) (fun _ => .ok sampleArchive)
    (fun (s : Unit) _ _ => (s, none)) "update.zip".toList
    (⟨"/opt/app".toList, ()⟩ : Options Unit) ⟨(), []⟩ sampleArchive rfl
    (by decide) (by decide) (fun _ _ _ => rfl)).2.2

/-- C2: where the host's separator is `/`, `shouldIgnore` answers `true`
exactly for the names one of whose `/`-separated segments is `.DS_Store` or
`__MACOSX` (`a/.DS_Store` and `x/y/__MACOSX/z.txt` are ignored,
`__MACOSXtras/readme.txt` and `a/.ds_store` are not); where the separator is
`\`, it answers `false` for `a/.DS_Store` and `x/y/__MACOSX/z.txt`. -/
theorem shouldIgnore_splits_on_host_separator :
    (∀ file : File, shouldIgnore '/' file = true ↔
      ∃ segs : List GoString, segs ≠ [] ∧ (∀ seg ∈ segs, '/' ∉ seg) ∧
        List.intercalate ['/'] segs = file.Name ∧
        ∃ seg ∈ segs, seg = ".DS_Store".toList ∨ seg = "__MACOSX".toList)
    ∧ shouldIgnore '/' ⟨"a/.DS_Store".toList, false, .ok []⟩ = true
    ∧ shouldIgnore '/' ⟨"x/y/__MACOSX/z.txt".toList, false, .ok []⟩ = true
    ∧ shouldIgnore '/' ⟨"__MACOSXtras/readme.txt".toList, false, .ok []⟩ = false
    ∧ shouldIgnore '/' ⟨"a/.ds_store".toList, false, .ok []⟩ = false
    ∧ shouldIgnore '\\' ⟨"a/.DS_Store".toList, false, .ok []⟩ = false
    ∧ shouldIgnore '\\' ⟨"x/y/__MACOSX/z.txt".toList, false, .ok []⟩ = false := by
  refine ⟨?_, by decide, by decide, by decide, by decide, by decide, by decide⟩
  intro file
  unfold shouldIgnore
  rw [List.any_eq_true]
  constructor
  · rintro ⟨seg, hseg, hc⟩
    obtain ⟨h1, h2, h3⟩ := (splitSeq_eq_iff '/' file.Name _).1 rfl
    exact ⟨splitSeq '/' file.Name, h1, h2, h3, seg, hseg, (containsPath_iff seg).1 hc⟩
  · rintro ⟨segs, h1, h2, h3, seg, hseg, hc⟩
    rw [(splitSeq_eq_iff '/' file.Name segs).2 ⟨h1, h2, h3⟩]
    exact ⟨seg, hseg, (containsPath_iff seg).2 hc⟩

/-- C3: if the installer returns an error `e` on the entry at position `i`,
then `ApplyZip` returns `e` (not `nil`), that entry is the `N+1`-th installable
entry for some `N`, the installer has been called exactly for the first `N+1`
installable entries in archive order, and no entry after position `i` is
opened or visited. -/
theorem ApplyZip_stops_at_first_installer_error {σ ω : Type} (h : Host)
    (exe : Except GoError GoString)
    (OpenReader : GoString → Except GoError (List File)) (Apply : Installer σ ω)
    (zipfile : GoString) (opts : Options ω) (w : World σ ω) (files : List File)
    (i : Nat) (name : GoString) (c : Stream) (e : GoError)
    (harchive : OpenReader zipfile = .ok files)
    (hfail : Event.visit i name c (some e)
      ∈ (ApplyZip h exe OpenReader Apply zipfile opts w).trace) :
    (ApplyZip h exe OpenReader Apply zipfile opts w).err = some e
    ∧ (∀ ev ∈ (ApplyZip h exe OpenReader Apply zipfile opts w).trace, ev.idx ≤ i)
    ∧ ∃ (N : Nat) (f : File) (base : GoString),
        baseDir h exe opts.TargetPath = some base
        ∧ (installable h.Separator 0 files)[N]? = some (i, f)
        ∧ (ApplyZip h exe OpenReader Apply zipfile opts w).state.calls
            = w.calls ++ ((installable h.Separator 0 files).take (N + 1)).map
                (fun p => (p.2.content,
                  { opts with TargetPath := h.Join base p.2.Name })) := by
  cases hb : baseDir h exe opts.TargetPath with
  | none =>
    obtain ⟨e0, _, _, heq⟩ := ApplyZip_of_baseDir_none h exe OpenReader Apply zipfile opts w hb
    rw [heq] at hfail
    simp at hfail
  | some base =>
    rw [ApplyZip_of_baseDir h exe OpenReader Apply zipfile opts w base hb] at hfail ⊢
    simp only [streamZipFile, harchive] at hfail ⊢
    obtain ⟨h1, h2, N, f, h3, h4⟩ := streamFiles_of_failed_visit h.Separator
      (dispatcher h Apply { opts with TargetPath := base }) files i name c e 0 w hfail
    refine ⟨h1, h2, N, f, base, rfl, h3, ?_⟩
    rw [dispatcher_calls, h4, List.map_map]
    rfl

/-- C3 at the scenario's archive with the installer failing on `bin/tool`: the
only call is the one for `bin/tool`. -/
theorem ApplyZip_stops_at_first_installer_error_witness :
    ((ApplyZip unixHost (.ok "/usr/bin/app".toList) (fun _ => .ok sampleArchive)
        rejectTool "update.zip".toList ⟨"/opt/app".toList, ()⟩ ⟨(), []⟩).state.calls.map
          (fun c => c.2.TargetPath) = ["/opt/app/bin/tool".toList])
    ∧ (ApplyZip unixHost (.ok "/usr/bin/app".toList) (fun _ => .ok sampleArchive)
        rejectTool "update.zip".toList ⟨"/opt/app".toList, ()⟩ ⟨(), []⟩).err
          = some (.leaf "write failed")
    ∧ (∀ ev ∈ (ApplyZip unixHost (.ok "/usr/bin/app".toList) (fun _ => .ok sampleArchive)
        rejectTool "update.zip".toList ⟨"/opt/app".toList, ()⟩ ⟨(), []⟩).trace,
          ev.idx ≤ 0) :=
  ⟨by decide,
    (ApplyZip_stops_at_first_installer_error unixHost (.ok "/usr/bin/app".toList)
      (fun _ => .ok sampleArchive) rejectTool "update.zip".toList
      ⟨"/opt/app".toList, ()⟩ ⟨(), []⟩ sampleArchive 0 "bin/tool".toList [1]
      (.leaf "write failed") rfl (by decide)).1,
    (ApplyZip_stops_at_first_installer_error unixHost (.ok "/usr/bin/app".toList)
      (fun _ => .ok sampleArchive) rejectTool "update.zip".toList
      ⟨"/opt/app".toList, ()⟩ ⟨(), []⟩ sampleArchive 0 "bin/tool".toList [1]
      (.leaf "write failed") rfl (by decide)).2.1⟩

/-- C4, as stated, fails: with an empty archive, an empty `TargetPath` and an
executable path that does not resolve, `ApplyZip` returns an error. -/
theorem ApplyZip_empty_archive_unresolved_executable :
    (ApplyZip unixHost (.error (.leaf "executable not found")) (fun _ => .ok [])
        (fun (s : Unit) _ _ => (s, none)) "update.zip".toList
        (⟨[], ()⟩ : Options Unit) ⟨(), []⟩).err
      = some (.wrapped "executable path" (.leaf "executable not found"))
    ∧ (ApplyZip unixHost (.error (.leaf "executable not found")) (fun _ => .ok [])
        (fun (s : Unit) _ _ => (s, none)) "update.zip".toList
        (⟨[], ()⟩ : Options Unit) ⟨(), []⟩).err ≠ none := by
  constructor
  · rfl
  · decide

/-- C4, amended: for an archive that opens and holds only ignored entries and
directories (or nothing), `ApplyZip` never calls the installer and opens no
stream; it returns `nil` when `TargetPath` is not empty or the executable path
resolves, and the wrapped resolution error when `TargetPath` is empty and the
executable path does not resolve. -/
theorem ApplyZip_without_installable_entries {σ ω : Type} (h : Host)
    (exe : Except GoError GoString)
    (OpenReader : GoString → Except GoError (List File)) (Apply : Installer σ ω)
    (zipfile : GoString) (opts : Options ω) (w : World σ ω) (files : List File)
    (harchive : OpenReader zipfile = .ok files)
    (hnone : ∀ f ∈ files, shouldIgnore h.Separator f = true ∨ f.IsDir = true) :
    (ApplyZip h exe OpenReader Apply zipfile opts w).state.calls = w.calls
    ∧ (ApplyZip h exe OpenReader Apply zipfile opts w).state.disk = w.disk
    ∧ (ApplyZip h exe OpenReader Apply zipfile opts w).trace = []
    ∧ ((opts.TargetPath ≠ [] ∨ ∃ p, exe = .ok p) →
        (ApplyZip h exe OpenReader Apply zipfile opts w).err = none)
    ∧ (∀ e, opts.TargetPath = [] → exe = .error e →
        (ApplyZip h exe OpenReader Apply zipfile opts w).err
          = some (.wrapped "executable path" e)) := by
  have hskip : ∀ (v : Visitor (World σ ω)) (fs : List File),
      (∀ f ∈ fs, shouldIgnore h.Separator f = true ∨ f.IsDir = true) →
      ∀ idx, streamFiles h.Separator v idx fs w = ⟨w, [], none⟩ := by
    intro v fs
    induction fs with
    | nil => intro _ idx; rfl
    | cons f rest ih =>
      intro hfs idx
      have hq : qualifies h.Separator f = false := by
        rcases hfs f (List.mem_cons_self _ _) with h1 | h1 <;> simp [qualifies, h1]
      rw [streamFiles_cons_skip _ _ _ _ _ _ hq]
      exact ih (fun g hg => hfs g (List.mem_cons_of_mem _ hg)) (idx + 1)
  cases hb : baseDir h exe opts.TargetPath with
  | none =>
    obtain ⟨e0, ht, he, heq⟩ :=
      ApplyZip_of_baseDir_none h exe OpenReader Apply zipfile opts w hb
    rw [heq]
    refine ⟨rfl, rfl, rfl, ?_, ?_⟩
    · rintro (h1 | ⟨p, hp⟩)
      · exact absurd ht h1
      · rw [hp] at he; cases he
    · intro e _ he'
      rw [he'] at he
      cases he
      rfl
  | some base =>
    rw [ApplyZip_of_baseDir h exe OpenReader Apply zipfile opts w base hb]
    simp only [streamZipFile, harchive]
    rw [hskip _ files hnone 0]
    refine ⟨rfl, rfl, rfl, fun _ => rfl, ?_⟩
    intro e ht he
    simp [baseDir, ht, he] at hb

/-- C4, amended, at an archive holding a directory and two ignored names, with
an empty `TargetPath` and an executable path that resolves. -/
theorem ApplyZip_without_installable_entries_witness :
    (ApplyZip unixHost (.ok "/usr/bin/app".toList) (fun _ => .ok metadataArchive)
        rejectTool "update.zip".toList ⟨[], ()⟩ ⟨(), []⟩).state.calls = []
    ∧ (ApplyZip unixHost (.ok "/usr/bin/app".toList) (fun _ => .ok metadataArchive)
        rejectTool "update.zip".toList ⟨[], ()⟩ ⟨(), []⟩).err = none :=
  ⟨(ApplyZip_without_installable_entries unixHost (.ok "/usr/bin/app".toList)
      (fun _ => .ok metadataArchive) rejectTool "update.zip".toList ⟨[], ()⟩ ⟨(), []⟩
      metadataArchive rfl (by decide)).1,
    (ApplyZip_without_installable_entries unixHost (.ok "/usr/bin/app".toList)
      (fun _ => .ok metadataArchive) rejectTool "update.zip".toList ⟨[], ()⟩ ⟨(), []⟩
      metadataArchive rfl (by decide)).2.2.2.1 (Or.inr ⟨_, rfl⟩)⟩

/-- C5: every call `ApplyZip` makes to the installer carries the entry's stream
and the base options with only the path replaced, the path being the host's
`Join` of the base directory and the entry's name, where the base directory is
`TargetPath` when it is not empty and `Dir` of the executable's path when
`TargetPath` is empty and that path resolves: each destination is computed
from the base directory, never from an earlier destination.  On a host whose
separator is `/`, for a base `/b` or `b` and a name made of ordinary segments
the `Join` is the base, `/` and the name, and `Dir` of `/b/prog` is `/b`. -/
theorem ApplyZip_destinations {σ ω : Type} (h : Host) (exe : Except GoError GoString)
    (OpenReader : GoString → Except GoError (List File)) (Apply : Installer σ ω)
    (zipfile : GoString) (opts : Options ω) (w : World σ ω) :
    (opts.TargetPath ≠ [] →
      (ApplyZip h exe OpenReader Apply zipfile opts w).state.calls
        = w.calls ++ (visitArgs (ApplyZip h exe OpenReader Apply zipfile opts w).trace).map
            (fun a => (a.2, { opts with TargetPath := h.Join opts.TargetPath a.1 })))
    ∧ (∀ p, opts.TargetPath = [] → exe = .ok p →
      (ApplyZip h exe OpenReader Apply zipfile opts w).state.calls
        = w.calls ++ (visitArgs (ApplyZip h exe OpenReader Apply zipfile opts w).trace).map
            (fun a => (a.2, { opts with TargetPath := h.Join (h.Dir p) a.1 })))
    ∧ (∀ b name, Normal b → Normal name →
        unixHost.Join ('/' :: b) name = '/' :: b ++ '/' :: name
        ∧ unixHost.Join b name = b ++ '/' :: name)
    ∧ (∀ b prog, Normal b → '/' ∉ prog → unixHost.Dir ('/' :: b ++ '/' :: prog) = '/' :: b) := by
  have key : ∀ base, baseDir h exe opts.TargetPath = some base →
      (ApplyZip h exe OpenReader Apply zipfile opts w).state.calls
        = w.calls ++ (visitArgs (ApplyZip h exe OpenReader Apply zipfile opts w).trace).map
            (fun a => (a.2, { opts with TargetPath := h.Join base a.1 })) := by
    intro base hb
    rw [ApplyZip_of_baseDir h exe OpenReader Apply zipfile opts w base hb]
    unfold streamZipFile
    cases OpenReader zipfile with
    | error e0 => simp [visitArgs]
    | ok files =>
      simp only
      rw [dispatcher_calls]
      rfl
  refine ⟨?_, ?_, fun b name hb hn => Join_of_normal b name hb hn,
    fun b prog hb hp => Dir_of_normal b prog hb hp⟩
  · intro ht
    exact key opts.TargetPath (by simp [baseDir, ht])
  · intro p ht he
    exact key (h.Dir p) (by simp [baseDir, ht, he])

/-- C5 at the scenario's archive with an empty `TargetPath` and the executable
at `/usr/bin/app`: both destinations are computed from `/usr/bin`. -/
theorem ApplyZip_destinations_witness :
    (ApplyZip unixHost (.ok "/usr/bin/app".toList) (fun _ => .ok sampleArchive)
        (fun (s : Unit) _ _ => (s, none)) "update.zip".toList
        (⟨[], ()⟩ : Options Unit) ⟨(), []⟩).state.calls.map (fun c => c.2.TargetPath)
      = ["/usr/bin/bin/tool".toList, "/usr/bin/docs/guide.txt".toList]
    ∧ unixHost.Join ('/' :: "opt/app".toList) "bin/tool".toList
      = '/' :: "opt/app".toList ++ '/' :: "bin/tool".toList
    ∧ unixHost.Dir ('/' :: "usr/bin".toList ++ '/' :: "app".toList)
      = '/' :: "usr/bin".toList := by
  refine ⟨?_, ?_, ?_⟩
  · rw [(ApplyZip_destinations unixHost (.ok "/usr/bin/app".toList)
      (fun _ => .ok sampleArchive) (fun (s : Unit) _ _ => (s, none)) "update.zip".toList
      (⟨[], ()⟩ : Options Unit) ⟨(), []⟩).2.1 "/usr/bin/app".toList rfl rfl]
    decide
  · exact ((ApplyZip_destinations unixHost (.ok "/usr/bin/app".toList)
      (fun _ => .ok sampleArchive) (fun (s : Unit) _ _ => (s, none)) "update.zip".toList
      (⟨[], ()⟩ : Options Unit) ⟨(), []⟩).2.2.1 "opt/app".toList "bin/tool".toList
      (by decide) (by decide)).1
  · exact (ApplyZip_destinations unixHost (.ok "/usr/bin/app".toList)
      (fun _ => .ok sampleArchive) (fun (s : Unit) _ _ => (s, none)) "update.zip".toList
      (⟨[], ()⟩ : Options Unit) ⟨(), []⟩).2.2.2 "usr/bin".toList "app".toList
      (by decide) (by decide)

/-- C6, as stated, fails: when the installer fails on `bin/tool` with the
error `write failed`, `ApplyZip` returns that very error, with no context
added. -/
theorem ApplyZip_returns_installer_error_itself :
    Event.visit 0 "bin/tool".toList [1] (some (.leaf "write failed"))
      ∈ (ApplyZip unixHost (.ok "/usr/bin/app".toList) (fun _ => .ok sampleArchive)
          rejectTool "update.zip".toList ⟨"/opt/app".toList, ()⟩ ⟨(), []⟩).trace
    ∧ (ApplyZip unixHost (.ok "/usr/bin/app".toList) (fun _ => .ok sampleArchive)
          rejectTool "update.zip".toList ⟨"/opt/app".toList, ()⟩ ⟨(), []⟩).err
        = some (.leaf "write failed") := by
  constructor
  · decide
  · decide

/-- C6, amended: when the visitor returns an error `e` for an entry,
`streamZipFile` returns `e` itself, and so does `ApplyZip` with the installer's
error, which the dispatcher hands on as it is; context is added only to the
errors of the other phases: `zip reader` when the archive does not open,
`zip open` when an entry's stream does not open, `executable path` when the
executable's path does not resolve. -/
theorem visitor_error_is_returned_as_is {σ τ ω : Type} (sep : Char)
    (OpenReader : GoString → Except GoError (List File)) (zipPath : GoString)
    (v : Visitor σ) (s : σ) (h : Host) (exe : Except GoError GoString)
    (Apply : Installer τ ω) (opts : Options ω) (w : World τ ω) :
    (∀ i name c e,
      Event.visit i name c (some e) ∈ (streamZipFile sep OpenReader zipPath v s).trace →
      (streamZipFile sep OpenReader zipPath v s).err = some e)
    ∧ (∀ i name c e,
      Event.visit i name c (some e)
        ∈ (ApplyZip h exe OpenReader Apply zipPath opts w).trace →
      (ApplyZip h exe OpenReader Apply zipPath opts w).err = some e)
    ∧ (∀ name reader o (w : World τ ω),
      (applyZipFile h Apply name reader o w).2
        = (Apply w.disk reader { o with TargetPath := h.Join o.TargetPath name }).2)
    ∧ (∀ e0, OpenReader zipPath = .error e0 →
      (streamZipFile sep OpenReader zipPath v s).err = some (.wrapped "zip reader" e0))
    ∧ (∀ i, Event.openFailed i ∈ (streamZipFile sep OpenReader zipPath v s).trace →
      ∃ e0, (streamZipFile sep OpenReader zipPath v s).err
        = some (.wrapped "zip open" e0))
    ∧ (∀ e0, opts.TargetPath = [] → exe = .error e0 →
      (ApplyZip h exe OpenReader Apply zipPath opts w).err
        = some (.wrapped "executable path" e0)) := by
  have hwalk : ∀ {ρ : Type} (sep : Char) (v : Visitor ρ) (s : ρ) i name c e,
      Event.visit i name c (some e) ∈ (streamZipFile sep OpenReader zipPath v s).trace →
      (streamZipFile sep OpenReader zipPath v s).err = some e := by
    intro ρ sep v s i name c e hev
    unfold streamZipFile at hev ⊢
    cases hr : OpenReader zipPath with
    | error e0 => rw [hr] at hev; simp at hev
    | ok files =>
      rw [hr] at hev
      exact (streamFiles_of_failed_visit sep v files i name c e 0 s hev).1
  refine ⟨hwalk sep v s, ?_, fun _ _ _ _ => rfl, ?_, ?_, ?_⟩
  · intro i name c e hev
    cases hb : baseDir h exe opts.TargetPath with
    | none =>
      obtain ⟨e0, _, _, heq⟩ :=
        ApplyZip_of_baseDir_none h exe OpenReader Apply zipPath opts w hb
      rw [heq] at hev
      simp at hev
    | some base =>
      rw [ApplyZip_of_baseDir h exe OpenReader Apply zipPath opts w base hb] at hev ⊢
      exact hwalk _ _ _ i name c e hev
  · intro e0 hr
    simp [streamZipFile, hr]
  · intro i hev
    unfold streamZipFile at hev ⊢
    cases hr : OpenReader zipPath with
    | error e0 => rw [hr] at hev; simp at hev
    | ok files =>
      rw [hr] at hev
      obtain ⟨_, e0, _, _, h3⟩ := streamFiles_of_openFailed sep v files i 0 s hev
      exact ⟨e0, h3⟩
  · intro e0 ht he
    simp [ApplyZip, ht, he]

/-- C6, amended, at the scenario's archive with the installer failing on
`bin/tool`. -/
theorem visitor_error_is_returned_as_is_witness :
    (ApplyZip unixHost (.ok "/usr/bin/app".toList) (fun _ => .ok sampleArchive)
        rejectTool "update.zip".toList ⟨"/opt/app".toList, ()⟩ ⟨(), []⟩).err
      = some (.leaf "write failed") :=
  (visitor_error_is_returned_as_is '/' (fun _ => .ok sampleArchive) "update.zip".toList
    (fun (s : Unit) _ _ => (s, none)) () unixHost (.ok "/usr/bin/app".toList)
    rejectTool ⟨"/opt/app".toList, ()⟩ ⟨(), []⟩).2.1 0 "bin/tool".toList [1]
    (.leaf "write failed") (by decide)

/-- C7: `streamZipFile` returns `nil` only if the archive opened, the stream of
every entry that is neither ignored nor a directory opened, and each of these
entries was visited, in order, with the visitor returning `nil`; and if the
stream of an installable entry at position `i` does not open, `streamZipFile`
returns an error, and no event other than the failed attempt to open is about
position `i` or a later one. -/
theorem streamZipFile_nil_only_if_all_visited {σ : Type} (sep : Char)
    (OpenReader : GoString → Except GoError (List File)) (zipPath : GoString)
    (v : Visitor σ) (s : σ) :
    ((streamZipFile sep OpenReader zipPath v s).err = none →
      ∃ files, OpenReader zipPath = .ok files
        ∧ (∀ p ∈ installable sep 0 files, p.2.opens = true)
        ∧ (streamZipFile sep OpenReader zipPath v s).trace
            = (installable sep 0 files).flatMap (fun p => entryEvents p.1 p.2 none))
    ∧ (∀ files i f e0, OpenReader zipPath = .ok files →
        (i, f) ∈ installable sep 0 files → f.Open = .error e0 →
        (streamZipFile sep OpenReader zipPath v s).err ≠ none
        ∧ ∀ ev ∈ (streamZipFile sep OpenReader zipPath v s).trace,
            ev.idx < i ∨ ev = .openFailed i) := by
  constructor
  · intro herr
    unfold streamZipFile at herr ⊢
    cases hr : OpenReader zipPath with
    | error e0 => rw [hr] at herr; simp at herr
    | ok files =>
      rw [hr] at herr
      obtain ⟨h1, h2⟩ := streamFiles_of_nil sep v files 0 s herr
      exact ⟨files, rfl, h1, h2⟩
  · intro files i f e0 hr hmem ho
    unfold streamZipFile
    rw [hr]
    exact streamFiles_of_unopenable sep v files i f e0 ho 0 s hmem

/-- C7 at an archive whose second entry cannot be opened: the walk fails and
the third entry is neither opened nor visited. -/
theorem streamZipFile_nil_only_if_all_visited_witness :
    (streamZipFile '/' (fun _ => .ok brokenArchive) "update.zip".toList
        (fun (s : Unit) _ _ => (s, none)) ()).err ≠ none
    ∧ ∀ ev ∈ (streamZipFile '/' (fun _ => .ok brokenArchive) "update.zip".toList
        (fun (s : Unit) _ _ => (s, none)) ()).trace,
          ev.idx < 1 ∨ ev = .openFailed 1 :=
  (streamZipFile_nil_only_if_all_visited '/' (fun _ => .ok brokenArchive)
    "update.zip".toList (fun (s : Unit) _ _ => (s, none)) ()).2 brokenArchive 1
    ⟨"lib/core.so".toList, false, .error (.leaf "unsupported compression")⟩
    (.leaf "unsupported compression") rfl (List.Mem.tail _ (List.Mem.head _)) rfl

/-- C8: on a host whose separator is `\`, the walker does not skip the entries
`a/.DS_Store` and `x/y/__MACOSX/z.txt`: whatever the visitor, the stream of
`a/.DS_Store` is opened and the visitor is called with it, and with a visitor
that accepts everything both entries are opened and visited; on a host whose
separator is `/` neither is opened. -/
theorem streamZipFile_visits_nested_metadata_on_backslash_host :
    (∀ (v : Visitor Unit),
      ((streamZipFile '\\' (fun _ => .ok nestedArchive) "update.zip".toList v ()).trace.take 2
        = [.openStream 0,
            .visit 0 "a/.DS_Store".toList [1] (v () "a/.DS_Store".toList [1]).2]))
    ∧ (streamZipFile '\\' (fun _ => .ok nestedArchive) "update.zip".toList
          (fun (s : Unit) _ _ => (s, none)) ()).trace
        = [.openStream 0, .visit 0 "a/.DS_Store".toList [1] none, .closeStream 0,
            .openStream 1, .visit 1 "x/y/__MACOSX/z.txt".toList [2] none, .closeStream 1]
    ∧ (∀ (v : Visitor Unit),
        (streamZipFile '/' (fun _ => .ok nestedArchive) "update.zip".toList v ()).trace = []) := by
  refine ⟨?_, by decide, ?_⟩
  · intro v
    have hq : qualifies '\\' ⟨"a/.DS_Store".toList, false, .ok [1]⟩ = true := by decide
    simp only [streamZipFile, nestedArchive]
    rcases streamFiles_cons_cases '\\' v 0 ⟨"a/.DS_Store".toList, false, .ok [1]⟩
      [⟨"x/y/__MACOSX/z.txt".toList, false, .ok [2]⟩] () with
      ⟨hq', _⟩ | ⟨_, e, ho, _⟩ | ⟨_, c, e, ho, hv, heq⟩ | ⟨_, c, ho, hv, heq⟩
    · rw [hq] at hq'; cases hq'
    · cases ho
    · cases ho
      rw [heq]
      simp only at hv
      rw [hv]
      rfl
    · cases ho
      rw [heq]
      simp only at hv
      rw [hv]
      rfl
  · intro v
    have h1 : qualifies '/' ⟨"a/.DS_Store".toList, false, .ok [1]⟩ = false := by decide
    have h2 : qualifies '/' ⟨"x/y/__MACOSX/z.txt".toList, false, .ok [2]⟩ = false := by decide
    simp only [streamZipFile, nestedArchive]
    rw [streamFiles_cons_skip _ _ _ _ _ _ h1, streamFiles_cons_skip _ _ _ _ _ _ h2]
    rfl

/-- C9: in every run of `streamZipFile`, after any number of events at most one
entry stream is open; while a visit runs exactly the visited entry's stream is
open; each opened stream is visited next and closed right after the visit,
whatever the visit returned; no stream is open when the function returns; and
every event is about an entry that is neither ignored nor a directory. -/
theorem streamZipFile_one_stream_at_a_time {σ : Type} (sep : Char)
    (OpenReader : GoString → Except GoError (List File)) (zipPath : GoString)
    (v : Visitor σ) (s : σ) :
    (∀ k, (openStreams [] ((streamZipFile sep OpenReader zipPath v s).trace.take k)).length
        ≤ 1)
    ∧ (∀ k i name c r,
        (streamZipFile sep OpenReader zipPath v s).trace[k]? = some (.visit i name c r) →
        openStreams [] ((streamZipFile sep OpenReader zipPath v s).trace.take k) = [i])
    ∧ (∀ k i,
        (streamZipFile sep OpenReader zipPath v s).trace[k]? = some (.openStream i) →
        (∃ name c r, (streamZipFile sep OpenReader zipPath v s).trace[k + 1]?
            = some (.visit i name c r))
        ∧ (streamZipFile sep OpenReader zipPath v s).trace[k + 2]?
            = some (.closeStream i))
    ∧ openStreams [] (streamZipFile sep OpenReader zipPath v s).trace = []
    ∧ (∀ files, OpenReader zipPath = .ok files →
        ∀ ev ∈ (streamZipFile sep OpenReader zipPath v s).trace,
          ∃ f, files[ev.idx]? = some f ∧ shouldIgnore sep f = false ∧ f.IsDir = false) := by
  have hd : Disciplined (streamZipFile sep OpenReader zipPath v s).trace := by
    unfold streamZipFile
    cases OpenReader zipPath with
    | error e0 => exact Disciplined.done
    | ok files => exact streamFiles_disciplined sep v files 0 s
  refine ⟨hd.openStreams_take, hd.during_visit, hd.after_open, hd.openStreams_eq_nil, ?_⟩
  intro files hr ev hev
  unfold streamZipFile at hev
  rw [hr] at hev
  obtain ⟨f, hf⟩ := mem_installable_of_mem_trace sep v files 0 s ev hev
  exact ⟨f, of_mem_installable_zero sep files ev.idx f hf⟩

/-- C9 at the scenario's archive with a visitor that fails on its second call:
the trace, and the streams open after each of its events. -/
theorem streamZipFile_one_stream_at_a_time_witness :
    (streamZipFile '/' (fun _ => .ok sampleArchive) "update.zip".toList
        (fun (n : Nat) _ _ => (n + 1, if n = 1 then some (.leaf "refused") else none))
        0).trace
      = [.openStream 0, .visit 0 "bin/tool".toList [1] none, .closeStream 0,
          .openStream 3, .visit 3 "docs/guide.txt".toList [3] (some (.leaf "refused")),
          .closeStream 3]
    ∧ openStreams [] ((streamZipFile '/' (fun _ => .ok sampleArchive) "update.zip".toList
        (fun (n : Nat) _ _ => (n + 1, if n = 1 then some (.leaf "refused") else none))
        0).trace.take 4) = [3]
    ∧ openStreams [] (streamZipFile '/' (fun _ => .ok sampleArchive) "update.zip".toList
        (fun (n : Nat) _ _ => (n + 1, if n = 1 then some (.leaf "refused") else none))
        0).trace = [] :=
  ⟨by decide,
    (streamZipFile_one_stream_at_a_time '/' (fun _ => .ok sampleArchive)
      "update.zip".toList
      (fun (n : Nat) _ _ => (n + 1, if n = 1 then some (.leaf "refused") else none))
      0).2.1 4 3 "docs/guide.txt".toList [3] (some (.leaf "refused")) (by decide),
    (streamZipFile_one_stream_at_a_time '/' (fun _ => .ok sampleArchive)
      "update.zip".toList
      (fun (n : Nat) _ _ => (n + 1, if n = 1 then some (.leaf "refused") else none))
      0).2.2.2.1⟩

/-- C10, as stated, fails: for the entry name `../../etc/passwd` and the target
directory `/opt/app`, the installer is given `/etc/passwd`, which is not
beneath `/opt/app`. -/
theorem applyZipFile_leaves_target_directory :
    (applyZipFile unixHost (fun (s : Unit) _ _ => (s, none)) "../../etc/passwd".toList [7]
        (⟨"/opt/app".toList, ()⟩ : Options Unit) ⟨(), []⟩).1.calls.map
          (fun c => c.2.TargetPath) = ["/etc/passwd".toList]
    ∧ (ApplyZip unixHost (.ok "/usr/bin/app".toList) (fun _ => .ok climbingArchive)
        (fun (s : Unit) _ _ => (s, none)) "update.zip".toList
        (⟨"/opt/app".toList, ()⟩ : Options Unit) ⟨(), []⟩).state.calls.map
          (fun c => c.2.TargetPath) = ["/etc/passwd".toList]
    ∧ ¬ ("/opt/app".toList <+: "/etc/passwd".toList) := by
  refine ⟨by decide, by decide, by decide⟩

/-- C10, amended: on a host whose separator is `/`, for a base target directory
other than the current directory and an entry name none of whose `/`-separated
segments is `..`, the destination `applyZipFile` passes to the installer is the
cleaned base directory, followed by nothing or by `/` and a relative path,
unless the cleaned base is the root `/`, which it then starts with. -/
theorem applyZipFile_destination_beneath_target {σ ω : Type} (Apply : Installer σ ω)
    (fname : GoString) (freader : Stream) (opts : Options ω) (w : World σ ω)
    (hbase : Clean opts.TargetPath ≠ ['.']) (hname : NoDotDot fname) :
    ∃ suffix,
      (applyZipFile unixHost Apply fname freader opts w).1.calls
        = w.calls ++ [(freader, { opts with TargetPath := Clean opts.TargetPath ++ suffix })]
      ∧ (suffix = [] ∨ suffix.head? = some '/' ∨ Clean opts.TargetPath = ['/']) := by
  obtain ⟨suffix, h1, h2⟩ := Join_beneath opts.TargetPath fname hbase hname
  refine ⟨suffix, ?_, h2⟩
  simp only [applyZipFile, callApply, unixHost, h1]

/-- C10, amended, at the target `/opt/app` and the entry name `bin//./tool`:
the destination is `/opt/app/bin/tool`. -/
theorem applyZipFile_destination_beneath_target_witness :
    (applyZipFile unixHost (fun (s : Unit) _ _ => (s, none)) "bin//./tool".toList [7]
        (⟨"/opt/app".toList, ()⟩ : Options Unit) ⟨(), []⟩).1.calls.map
          (fun c => c.2.TargetPath) = ["/opt/app/bin/tool".toList]
    ∧ ∃ suffix,
      (applyZipFile unixHost (fun (s : Unit) _ _ => (s, none)) "bin//./tool".toList [7]
        (⟨"/opt/app".toList, ()⟩ : Options Unit) ⟨(), []⟩).1.calls
        = [] ++ [([7], { (⟨"/opt/app".toList, ()⟩ : Options Unit) with
            TargetPath := Clean "/opt/app".toList ++ suffix })]
      ∧ (suffix = [] ∨ suffix.head? = some '/' ∨ Clean "/opt/app".toList = ['/']) :=
  ⟨by decide,
    applyZipFile_destination_beneath_target (fun (s : Unit) _ _ => (s, none))
      "bin//./tool".toList [7] (⟨"/opt/app".toList, ()⟩ : Options Unit) ⟨(), []⟩
      (by decide) (by decide)⟩

end Updater
